import Mathlib

/-!
Verification development for the cache engine of django-structured-field
(source files `structured/cache/engine.py` and `structured/pydantic/fields.py`).

Shallow embedding conventions:
* primary keys are natural numbers;
* a Django model class is an `MClass` record (identity, `__name__`,
  `_meta.abstract`); a model instance is an `Entity` record;
* the persistence layer (the Django ORM) is an explicit list of rows, and
  every operation that can hit it also reports the list of batch fetch
  calls it performs, so fetch-count properties can be stated;
* the raw data trees that flow through `build_cache` are the inductive
  type `Data` (Python `None`, an int primary key, a model instance, a
  `ValueWithCache` placeholder, a list, or a dict);
* the process-wide singleton cache is modelled by threading the cache
  value explicitly: a `ValueWithCache` holds a reference to the cache
  object in Python, so here `retrieve` receives the cache that the build
  phase produced.
-/

namespace Structured

/-- A Django model class: identity, `__name__`, and `_meta.abstract`. -/
structure MClass where
  id : Nat
  name : String
  abstract : Bool := false
deriving DecidableEq, Repr

/-- The primary key attribute name (`_meta.pk.attname`); modelled as the
uniform name `id` for every model. -/
def pk_attname : String := "id"

/-- A model instance: its class and its primary key. -/
structure Entity where
  typ : MClass
  pk : Nat
deriving DecidableEq, Repr

/-- The persistence layer: the rows available to the ORM. -/
abbrev DB := List Entity

/-- `model._default_manager.get(pk=k)`: the first row of model `m` with
primary key `k`, if any. -/
def dbGet (db : DB) (m : MClass) (k : Nat) : Option Entity :=
  (db.filter (fun e => e.typ == m && e.pk == k)).head?

/-- `model.objects.filter(pk__in=pks)`: all rows of model `m` whose
primary key is in `pks`, in database order. -/
def dbFetch (db : DB) (m : MClass) (pks : List Nat) : List Entity :=
  db.filter (fun e => e.typ == m && pks.contains e.pk)

/-- A Python dict key of the `Cache` object.  The engine always keys the
cache by model classes; the `str` alternative exists because
`Cache.flush` may be handed a model name, and the membership test
`model in self` then compares a string against the stored keys. -/
inductive PyKey where
  | cls : MClass → PyKey
  | str : String → PyKey
deriving DecidableEq, Repr

/-- One model's cache entry: the dict `{pk: entity}`. -/
abbrev ModelCache := List (Nat × Entity)

/-- The `Cache` dict: `model class → {pk: entity}` as an ordered
association list (Python dicts preserve insertion order). -/
abbrev Cache := List (PyKey × ModelCache)

/-- First association for a key, like `dict.get`. -/
def assocFind {α β : Type} [BEq α] : List (α × β) → α → Option β
  | [], _ => Option.none
  | (k, v) :: rest, a => if k == a then some v else assocFind rest a

/-- `d[a] = b` on an ordered dict: update in place if present, else
append at the end. -/
def assocUpsert {α β : Type} [BEq α] : List (α × β) → α → β → List (α × β)
  | [], a, b => [(a, b)]
  | (k, v) :: rest, a, b =>
      if k == a then (k, b) :: rest else (k, v) :: assocUpsert rest a b

/-- `self.get(model)` on the cache. -/
def cacheGet (c : Cache) (m : MClass) : Option ModelCache :=
  assocFind c (PyKey.cls m)

/-- `self[model] = mc` on the cache. -/
def cacheSet (c : Cache) (m : MClass) (mc : ModelCache) : Cache :=
  assocUpsert c (PyKey.cls m) mc

/-- The argument of `Cache.flush`: nothing (`None`), a model class, or a
model name. -/
inductive FlushArg where
  | noArg : FlushArg
  | byClass : MClass → FlushArg
  | byName : String → FlushArg
deriving DecidableEq, Repr

/-- Python truthiness of the `flush` argument (`if model:`); note that
the empty string is falsy. -/
def FlushArg.truthy : FlushArg → Bool
  | .noArg => false
  | .byClass _ => true
  | .byName s => s != ""

/-- `Cache.flush` (engine.py lines 41-50).  With a truthy argument: a
string argument is first mapped through
`next((m.__name__ for m in self.keys() if m.__name__ == model), None)`,
which yields the NAME `m.__name__` (a string) when some stored class has
that name, else `None`; then `if model in self: del self[model]` deletes
the entry if the (possibly mapped) argument is literally a key of the
dict.  With a falsy argument: `self.clear()`. -/
def flush (c : Cache) (arg : FlushArg) : Cache :=
  if arg.truthy then
    let target : Option PyKey :=
      match arg with
      | .byClass m => some (PyKey.cls m)
      | .byName s =>
          if c.any (fun p =>
              match p.1 with
              | .cls m => m.name == s
              | .str _ => false)
          then some (PyKey.str s) else Option.none
      | .noArg => Option.none
    match target with
    | some k =>
        if c.any (fun p => p.1 == k) then c.filter (fun p => !(p.1 == k)) else c
    | Option.none => c
  else []

/-- A raw data tree node, as handled by the cache engine. -/
inductive Data where
  | none : Data
  | pk : Nat → Data
  | inst : Entity → Data
  | lazy : MClass → Data → Data
  | list : List Data → Data
  | obj : List (String × Data) → Data

mutual

/-- Boolean equality on data nodes (Python `==` as used for set and dict
membership of primary keys and placeholders). -/
def Data.beq : Data → Data → Bool
  | .none, .none => true
  | .pk a, .pk b => a == b
  | .inst e, .inst f => e == f
  | .lazy m v, .lazy m' v' => m == m' && Data.beq v v'
  | .list xs, .list ys => Data.beqL xs ys
  | .obj xs, .obj ys => Data.beqO xs ys
  | _, _ => false

def Data.beqL : List Data → List Data → Bool
  | [], [] => true
  | x :: xs, y :: ys => Data.beq x y && Data.beqL xs ys
  | _, _ => false

def Data.beqO : List (String × Data) → List (String × Data) → Bool
  | [], [] => true
  | (k, x) :: xs, (k', y) :: ys => k == k' && Data.beq x y && Data.beqO xs ys
  | _, _ => false

end

instance : BEq Data := ⟨Data.beq⟩

/-- Python truthiness of a data node. -/
def Data.truthy : Data → Bool
  | .none => false
  | .pk n => n != 0
  | .inst _ => true
  | .lazy _ _ => true
  | .list xs => !xs.isEmpty
  | .obj kvs => !kvs.isEmpty

/-- `isinstance(v, ValueWithCache)`. -/
def Data.isLazy : Data → Bool
  | .lazy _ _ => true
  | _ => false

/-- The raw primary key carried by a node, when it is one. -/
def Data.asPk : Data → Option Nat
  | .pk n => some n
  | _ => Option.none

/-- One segment of a dotted path: a field name or a list index. -/
inductive Seg where
  | field : String → Seg
  | idx : Nat → Seg
deriving DecidableEq, Repr

/-- A path inside a nested data tree.  The source builds dotted strings
(`f"{field_name}.{index}.{t[0]}"`); since Python field names contain no
dot, those strings are in bijection with segment lists, which is the
representation used here. -/
abbrev Path := List Seg

def Seg.render : Seg → String
  | .field s => s
  | .idx n => toString n

/-- The dotted string the source would build for a path. -/
def Path.render (p : Path) : String :=
  String.intercalate "." (p.map Seg.render)

/-- Modelled from the spec: `structured.utils.getter.pointed_getter` is
not under src/.  Spec section 3 (Path): a dotted key "composed of field
names and, for sequence elements, numeric indices", "used both to read
the raw key at that location and to write the Lazy Value back"; spec
section 4.2: reading supports "both attribute-style and mapping-style
access".  Mapping nodes are read by key, lists by index, and attribute
access on a model instance exposes its primary key attribute; anything
else produces the default. -/
def pointed_getter (d : Data) (p : Path) (dflt : Data) : Data :=
  match p with
  | [] => d
  | seg :: rest =>
      match seg, d with
      | .field f, .obj kvs =>
          match assocFind kvs f with
          | some v => pointed_getter v rest dflt
          | Option.none => dflt
      | .field f, .inst e =>
          if f == pk_attname then pointed_getter (.pk e.pk) rest dflt else dflt
      | .idx i, .list xs =>
          match xs.get? i with
          | some v => pointed_getter v rest dflt
          | Option.none => dflt
      | _, _ => dflt

/-- Modelled from the spec: `structured.utils.setter.pointed_setter` is
not under src/.  It writes a value back at a dotted path (spec section 3,
Path).  A mapping gets the final key set (created if absent, as Python
`d[k] = v` does); a list gets the index overwritten when in range; a
missing or non-container intermediate leaves the tree unchanged (in the
pipeline every written path was previously read, so intermediates
exist).  Model instances and placeholders are immutable here, so writes
into them are dropped. -/
def pointed_setter (d : Data) (p : Path) (v : Data) : Data :=
  match p with
  | [] => v
  | [seg] =>
      match seg, d with
      | .field f, .obj kvs => .obj (assocUpsert kvs f v)
      | .idx i, .list xs => .list (xs.set i v)
      | _, _ => d
  | seg :: rest =>
      match seg, d with
      | .field f, .obj kvs =>
          match assocFind kvs f with
          | some child => .obj (assocUpsert kvs f (pointed_setter child rest v))
          | Option.none => d
      | .idx i, .list xs =>
          match xs.get? i with
          | some child => .list (xs.set i (pointed_setter child rest v))
          | Option.none => d
      | _, _ => d

/-- Errors surfaced when a placeholder is resolved. -/
inductive RErr where
  | attrError : RErr
  | doesNotExist : MClass → Data → RErr

/-- The value a placeholder resolves to: one instance, or the contents
of the queryset. -/
inductive Resolved where
  | one : Entity → Resolved
  | many : List Entity → Resolved
deriving DecidableEq, Repr

/-- `ValueWithCache.retrieve` (engine.py lines 76-91), for a placeholder
with model `m` and payload `value`, against cache `c` and the
persistence layer `db`.  Returns the outcome together with the batch
fetch calls that actually hit the persistence layer.

Iterable payload (a list, or a dict whose iteration yields string keys):
the code builds `qs = self.model.objects.filter(pk__in=self.value)` and
then overwrites `qs._result_cache` with
`[cache[i] for i in self.value if i in cache] if cache else []`.
Because a Django queryset with a non-`None` `_result_cache` is already
evaluated, the filter query never executes: the result is exactly the
cached hits in original payload order, and no fetch happens.

Non-iterable payload: `cache.get(self.value)`, falling back to
`self.model._default_manager.get(pk=self.value)` (one fetch) which
raises when the row is absent.  When the model has no cache entry at
all, `self.cache.get(self.model)` is `None` and `None.get(...)` raises
`AttributeError`. -/
def retrieve (db : DB) (c : Cache) (m : MClass) (value : Data) :
    Except RErr Resolved × List (MClass × List Nat) :=
  match value with
  | .list vs =>
      let res : List Entity :=
        match cacheGet c m with
        | Option.none => []
        | some entries =>
            if entries.isEmpty then []
            else vs.filterMap (fun v => v.asPk.bind (assocFind entries))
      (.ok (.many res), [])
  | .obj kvs =>
      -- a dict payload iterates its string keys, none of which is an
      -- int key of the cache dict, so the result cache is empty
      let _ := kvs
      (.ok (.many []), [])
  | v =>
      match cacheGet c m with
      | Option.none => (.error .attrError, [])
      | some entries =>
          match v.asPk.bind (assocFind entries) with
          | some e => (.ok (.one e), [])
          | Option.none =>
              match v.asPk with
              | some k =>
                  match dbGet db m k with
                  | some e => (.ok (.one e), [(m, [k])])
                  | Option.none => (.error (.doesNotExist m v), [(m, [k])])
              | Option.none => (.error (.doesNotExist m v), [(m, [])])

/-- The classification of one relation-bearing field, as produced by
`CacheEngine.inspect_related_fields` (engine.py lines 125-154).  The
source stores a `RelInfo` with a string tag and the target class, and
recovers a child engine for nested fields with
`CacheEngine.from_model(info.model)`; since that is a pure function of
the class, the nested alternatives here carry the child field map
directly.
* `fk`   = `RelInfo.FKField`  (a `ForeignKey[...]` field),
* `qs`   = `RelInfo.QSField`  (a `QuerySet[...]` field),
* `rel`  = `RelInfo.RIField`  (a nested structured sub-object),
* `rel_l`= `RelInfo.RLField`  (a sequence of structured sub-objects). -/
inductive RelTy where
  | fk : MClass → RelTy
  | qs : MClass → RelTy
  | rel : List (String × RelTy) → RelTy
  | rel_l : List (String × RelTy) → RelTy

/-- A `CacheEngine.__related_fields__` map, in declaration order. -/
abbrev Schema := List (String × RelTy)

/-- The collector result `mapping[model → list of (path, key-or-keys)]`,
an ordered association list like the `defaultdict(list)` of the source.
The second component of a tuple is the raw payload that will be stored
into the `ValueWithCache` (a single key, or a list of keys). -/
abbrev FkData := List (MClass × List (Path × Data))

/-- `fk_data[model] += ts`. -/
def FkData.add (fk : FkData) (m : MClass) (ts : List (Path × Data)) : FkData :=
  match fk with
  | [] => [(m, ts)]
  | (m', l) :: rest =>
      if m' == m then (m', l ++ ts) :: rest else (m', l) :: FkData.add rest m ts

/-- Turn every path of `fk` into `pre ++ path` (the dotted
`f"{prefix}.{t[0]}"` of the source). -/
def FkData.withPre (fk : FkData) (pre : Path) : FkData :=
  fk.map (fun p => (p.1, p.2.map (fun t => (pre ++ t.1, t.2))))

/-- `for model, touples in child.items(): fk_data[model] += touples`. -/
def FkData.mergeAll (fk : FkData) (child : FkData) : FkData :=
  child.foldl (fun acc p => FkData.add acc p.1 p.2) fk

/-- The value examined by the single-reference branch of `get_fk_data`:
the field read with default `None`, then, when the result is a dict,
its primary-key entry (`value.get(pk_attname, None)`). -/
def fkExtractedValue (d : Data) (name : String) : Data :=
  match pointed_getter d [Seg.field name] Data.none with
  | .obj kvs => (assocFind kvs pk_attname).getD Data.none
  | v => v

mutual

/-- `CacheEngine.get_all_fk_data` (engine.py lines 156-164): a sequence
recurses on each element, prefixing every resulting path with the
element index; anything else is handled by `get_fk_data`. -/
def get_all_fk_data (fs : Schema) (d : Data) : FkData :=
  match d with
  | .list xs => gafd_list fs xs 0 []
  | .none => get_fk_data fs .none
  | .pk n => get_fk_data fs (.pk n)
  | .inst e => get_fk_data fs (.inst e)
  | .lazy m v => get_fk_data fs (.lazy m v)
  | .obj kvs => get_fk_data fs (.obj kvs)
termination_by (sizeOf fs, sizeOf d, 3)


/-- The index loop of `get_all_fk_data`. -/
def gafd_list (fs : Schema) (xs : List Data) (i : Nat) (acc : FkData) :
    FkData :=
  match xs with
  | [] => acc
  | x :: rest =>
      gafd_list fs rest (i + 1)
        (acc.mergeAll ((get_all_fk_data fs x).withPre [Seg.idx i]))
termination_by (sizeOf fs, sizeOf xs, 2)


/-- `CacheEngine.get_fk_data` (engine.py lines 166-223).  A falsy node
collects nothing.  Otherwise the related fields are scanned in order;
when a field trips the recursion guard (an already-substituted
`ValueWithCache` shows up in a single-reference value or inside a
reference-collection list), the source executes `fk_data = {}` followed
by `break`, which discards everything collected from the previous
fields of this node and skips the remaining ones — here rendered by the
`Option` result of `collect_fields` (`none` = guard tripped, whole node
yields the empty map). -/
def get_fk_data (fs : Schema) (d : Data) : FkData :=
  if !d.truthy then []
  else
    match collect_fields fs d [] with
    | some fk => fk
    | Option.none => []
termination_by (sizeOf fs, sizeOf d, 2)


/-- The field loop of `get_fk_data`, with `acc` the `fk_data` built so
far; `none` models `fk_data = {}; break`. -/
def collect_fields (fs : Schema) (d : Data) (acc : FkData) : Option FkData :=
  match fs with
  | [] => some acc
  | (name, ty) :: rest =>
      match collect_field name ty d with
      | Option.none => Option.none
      | some contrib => collect_fields rest d (acc.mergeAll contrib)
termination_by (sizeOf fs, sizeOf d, 1)


/-- One iteration of the field loop of `get_fk_data`: the contribution
of field `name` classified as `ty` on node `d`, or `none` when the
recursion guard trips. -/
def collect_field (name : String) (ty : RelTy) (d : Data) : Option FkData :=
  match ty with
  | .fk m =>
      -- value = pointed_getter(data, field_name, None)
      -- if isinstance(value, dict): value = value.get(pk_attname, None)
      let value := fkExtractedValue d name
      if value.truthy then
        if value.isLazy then Option.none
        else
          some [(m, [([Seg.field name],
            pointed_getter value [Seg.field pk_attname] value)])]
      else some []
  | .qs m =>
      -- value = pointed_getter(data, field_name, [])
      let value := pointed_getter d [Seg.field name] (Data.list [])
      match value with
      | .list vs =>
          if vs.any Data.isLazy then Option.none
          else
            some [(m, [([Seg.field name],
              Data.list ((vs.filter Data.truthy).map
                (fun i => pointed_getter i [Seg.field pk_attname] i)))])]
      | _ => some []
  | .rel cf =>
      let v := pointed_getter d [Seg.field name] Data.none
      some ((get_all_fk_data cf v).withPre [Seg.field name])
  | .rel_l cf =>
      match pointed_getter d [Seg.field name] (Data.list []) with
      | .list vs => some (rel_l_elems cf name vs 0 [])
      | _ => some []
termination_by (sizeOf ty, sizeOf d, 0)


/-- The element loop of the nested-collection branch of `get_fk_data`. -/
def rel_l_elems (cf : Schema) (name : String) (xs : List Data) (i : Nat)
    (acc : FkData) : FkData :=
  match xs with
  | [] => acc
  | x :: rest =>
      rel_l_elems cf name rest (i + 1)
        (acc.mergeAll
          ((get_all_fk_data cf x).withPre [Seg.field name, Seg.idx i]))
termination_by (sizeOf cf, sizeOf xs, 2)


end

/-- Insert a value into a Python set modelled as a duplicate-free list:
membership (by Python `==`) keeps the set unchanged, a new value is
appended.  Python sets do not expose a stable order; the insertion
order used here is one deterministic realization. -/
def setAdd (s : List Data) (v : Data) : List Data :=
  if s.contains v then s else s ++ [v]

/-- `plainset[model].update(vs)` elementwise. -/
def setAddMany (s : List Data) (vs : List Data) : List Data :=
  vs.foldl setAdd s

/-- The `plainset` of `build_cache`: an ordered association list
standing for the `defaultdict(set)`.  Touching a model key creates an
empty entry (as indexing a defaultdict does). -/
abbrev PlainSet := List (MClass × List Data)

/-- `plainset[model] = f(plainset[model])`, creating the entry if
absent. -/
def psUpdate (ps : PlainSet) (m : MClass) (f : List Data → List Data) :
    PlainSet :=
  match ps with
  | [] => [(m, f [])]
  | (m', s) :: rest =>
      if m' == m then (m', f s) :: rest else (m', s) :: psUpdate rest m f

/-- The plainset loop of `build_cache` (engine.py lines 229-235): for
every collected tuple, a list payload is poured into the model's key
set elementwise, a scalar payload is added as one element. -/
def mk_plainset (fk : FkData) : PlainSet :=
  fk.foldl
    (fun ps p =>
      p.2.foldl
        (fun ps t =>
          match t.2 with
          | .list xs => psUpdate ps p.1 (fun s => setAddMany s xs)
          | v => psUpdate ps p.1 (fun s => setAdd s v))
        ps)
    []

/-- `{obj.pk: obj for obj in models}`: first occurrence fixes the
position, a later duplicate key overwrites the value. -/
def mkPkMap (models : List Entity) : ModelCache :=
  models.foldl (fun mc e => assocUpsert mc e.pk e) []

/-- `isinstance(value, model)`: the value is an instance of that model
class. -/
def Data.isInstOf (v : Data) (m : MClass) : Bool :=
  match v with
  | .inst e => e.typ == m
  | _ => false

/-- The `models` list accumulated before fetching, for one plainset
entry: `list(cache.get(model, {}).values())` followed by the key-set
members that are full instances of the model, in set order. -/
def flModels (c : Cache) (m : MClass) (values : List Data) : List Entity :=
  ((cacheGet c m).getD []).map (fun p => p.2) ++
    (values.filter (fun v => v.isInstOf m)).filterMap
      (fun v => match v with | .inst e => some e | _ => Option.none)

/-- The `pks` list that remains to be fetched for one plainset entry:
the non-instance key-set members whose primary key is not among
`models_pks` (a non-key junk value is not a member of an int list, so
it survives the membership filter). -/
def flPks (c : Cache) (m : MClass) (values : List Data) : List Data :=
  (values.filter (fun v => !v.isInstOf m)).filter
    (fun v =>
      match v.asPk with
      | some n => !((flModels c m values).map (fun e => e.pk)).contains n
      | Option.none => true)

/-- The fetch loop of `build_cache` (engine.py lines 240-252), one
plainset entry at a time.  For a model and its key set: start from the
entities already cached for it, separate set members that are full
instances from raw keys, drop keys whose entity is already known, fetch
the rest with one `filter(pk__in=pks)` call (only when the list is
nonempty), and store `{obj.pk: obj}` back.  Returns the final cache and
the fetch calls performed, in order. -/
def fetch_loop (db : DB) (c : Cache) : PlainSet → Cache × List (MClass × List Nat)
  | [] => (c, [])
  | (m, values) :: rest =>
      let pks := flPks c m values
      let fetched := if pks.isEmpty then [] else dbFetch db m (pks.filterMap Data.asPk)
      let calls : List (MClass × List Nat) :=
        if pks.isEmpty then [] else [(m, pks.filterMap Data.asPk)]
      let c' := cacheSet c m (mkPkMap (flModels c m values ++ fetched))
      let r := fetch_loop db c' rest
      (r.1, calls ++ r.2)

/-- The substitution loop of `build_cache` (engine.py lines 254-256):
walk the collected tuples again and overwrite each recorded path with a
`ValueWithCache` holding the target model and the original payload.
The cache reference stored in the Python object is supplied again at
resolution time here. -/
def subst_all (fk : FkData) (d : Data) : Data :=
  fk.foldl
    (fun d p => p.2.foldl (fun d t => pointed_setter d t.1 (.lazy p.1 t.2)) d)
    d

/-- The result of one `build_cache` pass: the (possibly substituted)
tree, the cache state afterwards, and the persistence fetch calls
performed. -/
structure BuildResult where
  data : Data
  cache : Cache
  calls : List (MClass × List Nat)

/-- `CacheEngine.build_cache` (engine.py lines 225-257).  `enabled` is
`STRUCTURED_FIELD_CACHE_ENABLED`, `shared` is
`STRUCTURED_FIELD_SHARED_CACHE`; `shCache` is the current content of
the process-wide `ThreadSafeCache` singleton (ignored and replaced by a
fresh empty `Cache()` when `shared` is false). -/
def build_cache (enabled shared : Bool) (db : DB) (shCache : Cache)
    (fs : Schema) (d : Data) : BuildResult :=
  if !enabled then ⟨d, shCache, []⟩
  else
    let fk := get_all_fk_data fs d
    let ps := mk_plainset fk
    let c0 := if shared then shCache else []
    let r := fetch_loop db c0 ps
    ⟨subst_all fk d, r.1, r.2⟩

/-- Turn a resolved placeholder into the value stored back on the
instance. -/
def Resolved.toData : Resolved → Data
  | .one e => .inst e
  | .many es => .list (es.map Data.inst)

mutual

/-- `CacheEngine.fetch_cache` (engine.py lines 110-118): walk the
fields of a validated instance; a `ValueWithCache` value is replaced by
its `retrieve()` result (the first lookup failure propagates), a nested
structured instance is walked recursively, anything else is left
untouched.  Validated structured instances are modelled as `obj`
nodes. -/
def fetch_cache (db : DB) (c : Cache) : Data → Except RErr Data
  | .obj kvs => (fc_fields db c kvs).map Data.obj
  | d => .ok d

/-- The field loop of `fetch_cache`. -/
def fc_fields (db : DB) (c : Cache) :
    List (String × Data) → Except RErr (List (String × Data))
  | [] => .ok []
  | (k, v) :: rest =>
      let v' : Except RErr Data :=
        match v with
        | .lazy m val => (retrieve db c m val).1.map Resolved.toData
        | .obj kvs => (fc_fields db c kvs).map Data.obj
        | w => .ok w
      match v' with
      | .error e => .error e
      | .ok v'' =>
          match fc_fields db c rest with
          | .error e => .error e
          | .ok rest' => .ok ((k, v'') :: rest')

end

/-- Errors raised by the pydantic validators of the relation fields. -/
inductive VErr where
  | abstractModel : VErr
  | doesNotExist : MClass → Nat → VErr
deriving DecidableEq, Repr

/-- `validate_from_pk` (fields.py lines 31-38): validating a single
reference from a bare primary key raises
`ValueError("Cannot retrieve abstract models from primary key only.")`
when the target class is abstract, before any persistence access;
otherwise it is `model_class._default_manager.get(pk=pk)`, which raises
when the row is absent. -/
def validate_from_pk (db : DB) (m : MClass) (k : Nat) : Except VErr Entity :=
  if m.abstract then .error .abstractModel
  else
    match dbGet db m k with
    | some e => .ok e
    | Option.none => .error (.doesNotExist m k)

/-- `validate_from_pk_list` (fields.py lines 119-131): validating a
reference collection from a list of bare primary keys raises the same
abstract-model error eagerly; otherwise it is
`filter(pk__in=values).order_by(preserved)` where `preserved` orders
each row by the first position of its primary key in the input list
(the first matching `When` of the `Case` wins), modelled as one lookup
per first key occurrence. -/
def validate_from_pk_list (db : DB) (m : MClass) (ks : List Nat) :
    Except VErr (List Entity) :=
  if m.abstract then .error .abstractModel
  else .ok (ks.eraseDups.filterMap (dbGet db m))

/-- All keys that a list of fetch calls requests for model `m`. -/
def fetchedKeys : List (MClass × List Nat) → MClass → List Nat
  | [], _ => []
  | p :: rest, m => (if p.1 == m then p.2 else []) ++ fetchedKeys rest m

/-! Concrete fixtures shared by witnesses and counterexamples. -/

def mItem : MClass := ⟨1, "Item", false⟩

def mCountry : MClass := ⟨2, "Country", false⟩

def mAnimal : MClass := ⟨3, "Animal", true⟩

def eItem1 : Entity := ⟨mItem, 1⟩

def eItem2 : Entity := ⟨mItem, 2⟩

def eItem5 : Entity := ⟨mItem, 5⟩

def eCountry9 : Entity := ⟨mCountry, 9⟩

def dbMain : DB := [eItem1, eItem2, eItem5, eCountry9]

/-- A persistence layer with no row for `Item` primary key 2. -/
def dbNo2 : DB := [eItem1, eItem5, eCountry9]

/-- A cache holding only `Item` key 1. -/
def cachePart1 : Cache := [(PyKey.cls mItem, [(1, eItem1)])]

/-- A cache holding `Item` keys 1 and 2. -/
def cacheItems12 : Cache := [(PyKey.cls mItem, [(1, eItem1), (2, eItem2)])]

/-- A cache holding entries for two model classes. -/
def cacheAB : Cache :=
  [(PyKey.cls mItem, [(1, eItem1)]), (PyKey.cls mCountry, [(9, eCountry9)])]

def fsOwner : Schema := [("owner", RelTy.fk mItem)]

def fsItems : Schema := [("items", RelTy.qs mItem)]

def fsOwnerItems : Schema := [("owner", RelTy.fk mItem), ("items", RelTy.qs mItem)]

def fsAddr : Schema := [("address", RelTy.rel [("country", RelTy.fk mCountry)])]

def fsAB : Schema := [("a", RelTy.fk mItem), ("b", RelTy.fk mItem)]

def dOwner5 : Data := Data.obj [("owner", Data.pk 5)]

def dItems121 : Data :=
  Data.obj [("items", Data.list [Data.pk 1, Data.pk 2, Data.pk 1])]

/-- The C2 scenario input: the `Item` with key 5 is present as a full
instance, and key 1 appears twice in the collection. -/
def dInst5 : Data :=
  Data.obj [("owner", Data.inst eItem5),
            ("items", Data.list [Data.pk 1, Data.pk 2, Data.pk 1])]

def dAddr : Data := Data.obj [("address", Data.obj [("country", Data.pk 9)])]

/-- A node whose field `a` already holds a placeholder while field `b`
still holds a raw key. -/
def dLazyA : Data :=
  Data.obj [("a", Data.lazy mItem (Data.pk 1)), ("b", Data.pk 5)]

/-- A reference collection naming only the absent key 2. -/
def dItems2 : Data := Data.obj [("items", Data.list [Data.pk 2])]

/-! ## Machinery for the idempotence analysis (second build pass)

`subst_all` folds `pointed_setter` over the collected tuples.  To reason
about a second collection pass over the substituted tree, the tuples
are flattened into one write list, and the effect of a write list on a
node is characterized per field (`projField`) and per list element
(`projIdx`). -/

/-- The collected tuples as one flat write list, in substitution order,
paired with the placeholder each will receive. -/
def flattenFk : FkData → List (Path × Data)
  | [] => []
  | p :: rest =>
      p.2.map (fun t => (t.1, Data.lazy p.1 t.2)) ++ flattenFk rest

/-- Apply a list of writes in order. -/
def applyAll (σ : List (Path × Data)) (d : Data) : Data :=
  σ.foldl (fun d t => pointed_setter d t.1 t.2) d

/-- The writes that enter field `f`: paths headed by that field name,
with the head stripped. -/
def projField (f : String) (σ : List (Path × Data)) : List (Path × Data) :=
  σ.filterMap (fun t =>
    match t.1 with
    | Seg.field g :: rest => if g == f then some (rest, t.2) else Option.none
    | _ => Option.none)

/-- The writes that enter list element `i`: paths headed by that index,
with the head stripped. -/
def projIdx (i : Nat) (σ : List (Path × Data)) : List (Path × Data) :=
  σ.filterMap (fun t =>
    match t.1 with
    | Seg.idx j :: rest => if j == i then some (rest, t.2) else Option.none
    | _ => Option.none)

/-- The value read at a dict key that was absent before the writes ran:
writes with a deeper path are dropped, the first root write creates the
key and the remaining writes then apply to it. -/
def createRun : List (Path × Data) → Data → Data
  | [], dflt => dflt
  | ([], v) :: rest, _ => applyAll rest v
  | (_ :: _, _) :: rest, dflt => createRun rest dflt

mutual

/-- Well-formedness of a schema: field names are distinct at every
level (as they are for a Python class dict). -/
def schemaOk : Schema → Bool
  | [] => true
  | (f, ty) :: rest =>
      !((rest.map Prod.fst).contains f) && tyOk ty && schemaOk rest

def tyOk : RelTy → Bool
  | .fk _ => true
  | .qs _ => true
  | .rel cf => schemaOk cf
  | .rel_l cf => schemaOk cf

end

mutual

/-- A data node on which one substitution pass produces a tree that the
next pass collects nothing from.  Lists recurse elementwise; `None` and
other falsy scalars are skipped by the collector; dict nodes need their
nested children clean and their reference-collection fields present
(an absent collection field would be collected with an empty key list
and the write could not be placed on a non-dict carrier); truthy
non-dict carriers (raw keys, instances, placeholders at a структured
position) are excluded, since a collection field read on them falls
back to the default and would be re-collected every pass. -/
def cleanNode (fs : Schema) (d : Data) : Bool :=
  match d with
  | .list xs => cleanList fs xs
  | .none => true
  | .pk n => n == 0
  | .inst _ => false
  | .lazy _ _ => false
  | .obj kvs => cleanFields fs kvs
termination_by (sizeOf fs, sizeOf d, 1)

def cleanList (fs : Schema) (xs : List Data) : Bool :=
  match xs with
  | [] => true
  | x :: rest => cleanNode fs x && cleanList fs rest
termination_by (sizeOf fs, sizeOf xs, 0)

def cleanFields (fs : Schema) (kvs : List (String × Data)) : Bool :=
  match fs with
  | [] => true
  | (f, ty) :: rest =>
      (match ty with
        | .fk _ => true
        | .qs _ => (assocFind kvs f).isSome
        | .rel cf => cleanNode cf ((assocFind kvs f).getD Data.none)
        | .rel_l cf =>
            match assocFind kvs f with
            | some (Data.list vs) => cleanList cf vs
            | _ => true) &&
      cleanFields rest kvs
termination_by (sizeOf fs, sizeOf kvs, 2)

end

mutual

/-- `Writes fs d σ` relates a node and a write list: `σ` contains, for
every position the collector recorded on `(fs, d)`, exactly the
corresponding placeholder write, and nothing else that could reach a
relation-bearing position.  `flattenFk` of the node's own
collection satifies it (up to the harmless regrouping the model-major
substitution order performs). -/
def Writes (fs : Schema) (d : Data) (σ : List (Path × Data)) : Prop :=
  (∀ t ∈ σ, t.1 ≠ []) ∧
  match d with
  | .list xs => WritesList fs xs 0 σ
  | .none => σ = []
  | .pk n =>
      if (Data.pk n).truthy then
        match collect_fields fs (Data.pk n) [] with
        | Option.none => σ = []
        | some _ => WritesFields fs fs (Data.pk n) σ
      else σ = []
  | .inst e =>
      match collect_fields fs (Data.inst e) [] with
      | Option.none => σ = []
      | some _ => WritesFields fs fs (Data.inst e) σ
  | .lazy m v =>
      match collect_fields fs (Data.lazy m v) [] with
      | Option.none => σ = []
      | some _ => WritesFields fs fs (Data.lazy m v) σ
  | .obj kvs =>
      if (Data.obj kvs).truthy then
        match collect_fields fs (Data.obj kvs) [] with
        | Option.none => σ = []
        | some _ => WritesFields fs fs (Data.obj kvs) σ
      else σ = []
termination_by (sizeOf fs, sizeOf d, 1)

def WritesList (fs : Schema) (xs : List Data) (i : Nat)
    (σ : List (Path × Data)) : Prop :=
  match xs with
  | [] => True
  | x :: rest => Writes fs x (projIdx i σ) ∧ WritesList fs rest (i + 1) σ
termination_by (sizeOf fs, sizeOf xs, 0)

/-- The per-field pinning of `Writes` on a truthy non-list node whose
field loop did not abort.  The first schema argument only drives the
recursion; conditions are stated against the full write list through
`projField`. -/
def WritesFields (fs fs0 : Schema) (d : Data) (σ : List (Path × Data)) :
    Prop :=
  match fs with
  | [] => True
  | (f, ty) :: rest =>
      (match ty with
        | .fk _ =>
            if (fkExtractedValue d f).truthy then
              ∃ mv vv, projField f σ = [([], Data.lazy mv vv)]
            else projField f σ = []
        | .qs _ =>
            match pointed_getter d [Seg.field f] (Data.list []) with
            | .list _ => ∃ mv vv, projField f σ = [([], Data.lazy mv vv)]
            | _ => projField f σ = []
        | .rel cf =>
            Writes cf (pointed_getter d [Seg.field f] Data.none)
              (projField f σ)
        | .rel_l cf =>
            match pointed_getter d [Seg.field f] (Data.list []) with
            | .list vs =>
                WritesList cf vs 0 (projField f σ) ∧
                (∀ t ∈ projField f σ, t.1 ≠ [])
            | _ => projField f σ = []) ∧
      WritesFields rest fs0 d σ
termination_by (sizeOf fs, sizeOf d, 0)

end

/-! ## General helper lemmas -/

theorem filterMap_eq_map_of_forall {α β : Type} (l : List α)
    (g : α → Option β) (f : α → β) (h : ∀ a ∈ l, g a = some (f a)) :
    l.filterMap g = l.map f := by
  induction l with
  | nil => simp
  | cons x xs ih =>
      simp only [List.filterMap_cons, List.map_cons, h x (List.mem_cons_self x xs)]
      rw [ih (fun a ha => h a (List.mem_cons_of_mem x ha))]

/-! ## C4: disabled pass-through -/

/-- C4: when `STRUCTURED_FIELD_CACHE_ENABLED` is false, `build_cache`
returns its input unchanged for every input: no reference is collected,
no persistence fetch happens, no Lazy Value is substituted, and the
shared cache is left as it was. -/
theorem c4_disabled_pass_through (shared : Bool) (db : DB) (c : Cache)
    (fs : Schema) (d : Data) :
    build_cache false shared db c fs d = ⟨d, c, []⟩ := by
  simp [build_cache]

/-! ## C10: abstract targets reject bare primary keys -/

/-- C10: validating a reference to an abstract target class from a bare
primary key, or a reference collection from a list of bare primary
keys, raises the abstract-model error eagerly (for every persistence
state, i.e. before any fetch), for both the single-reference and the
collection field. -/
theorem c10_abstract_raises (db : DB) (m : MClass) (h : m.abstract = true)
    (k : Nat) (ks : List Nat) :
    validate_from_pk db m k = .error .abstractModel ∧
    validate_from_pk_list db m ks = .error .abstractModel := by
  constructor <;> simp [validate_from_pk, validate_from_pk_list, h]

/-- C10 witness: the abstract class `Animal` at concrete inputs. -/
theorem c10_witness :
    validate_from_pk dbMain mAnimal 3 = .error .abstractModel ∧
    validate_from_pk_list dbMain mAnimal [1, 2] = .error .abstractModel :=
  c10_abstract_raises dbMain mAnimal rfl 3 [1, 2]

/-! ## C7: flush semantics -/

/-- C7 evaluation: on a cache holding entries for classes `Item` and
`Country`, `flush` with the class object removes exactly that class's
entry and `flush()` clears everything — but `flush` with the class
NAME `"Item"` leaves the cache unchanged: the generator
`next((m.__name__ for m in self.keys() if m.__name__ == model), None)`
maps the name to itself (`m.__name__`) instead of the class `m`, so
the following `model in self` test against class keys fails and
nothing is deleted, contradicting the claim that a type's entries can
be flushed by name. -/
theorem c7_flush_eval :
    flush cacheAB (.byName "Item") = cacheAB ∧
    flush cacheAB (.byClass mItem) = [(PyKey.cls mCountry, [(9, eCountry9)])] ∧
    flush cacheAB .noArg = [] := by
  refine ⟨?_, ?_, ?_⟩ <;> decide

/-! ## C1: resolving a sequence-of-keys placeholder -/

/-- C1 counterexample: the batch cache holds only key 1, the
persistence layer has a row for key 2, and the placeholder carries the
key sequence `[1, 2]`.  The claim says resolution merges cached hits
with a single batch fetch of the remaining keys, giving
`[Item(1), Item(2)]`; the code instead pre-populates the queryset's
`_result_cache` with the cached hits only, so the fetch never runs: the
result is `[Item(1)]` and the call list is empty. -/
theorem c1_counterexample :
    retrieve dbMain cachePart1 mItem (Data.list [Data.pk 1, Data.pk 2]) =
      (.ok (.many [eItem1]), []) := by
  simp [retrieve, cacheGet, cachePart1, assocFind, Data.asPk]

/-- C1 (amended): resolving a placeholder bound to an ordered sequence
of keys returns exactly the cached hits, in original key order and
preserving duplicates, and performs no persistence fetch; keys absent
from the batch cache are silently omitted rather than fetched.  In
particular, when every key is cached the result is the image of the key
sequence, duplicates and order intact. -/
theorem c1_retrieve_cached_hits_only (db : DB) (c : Cache) (m : MClass)
    (pks : List Nat) (entries : ModelCache)
    (hc : cacheGet c m = some entries) :
    (retrieve db c m (Data.list (pks.map Data.pk)) =
      (.ok (.many (pks.filterMap (fun k => assocFind entries k))), [])) ∧
    (∀ f : Nat → Entity, (∀ k ∈ pks, assocFind entries k = some (f k)) →
      retrieve db c m (Data.list (pks.map Data.pk)) =
        (.ok (.many (pks.map f)), [])) := by
  have hmain : retrieve db c m (Data.list (pks.map Data.pk)) =
      (.ok (.many (pks.filterMap (fun k => assocFind entries k))), []) := by
    simp only [retrieve, hc]
    by_cases he : entries.isEmpty
    · have : entries = [] := List.isEmpty_iff.mp he
      subst this
      simp [assocFind, List.filterMap_eq_nil_iff]
    · simp only [he, if_false, List.filterMap_map]
      congr 3
  refine ⟨hmain, fun f hf => ?_⟩
  rw [hmain, filterMap_eq_map_of_forall pks _ f hf]

/-- C1 witness: every key of the sequence `[1, 2, 1]` is cached, and
the resolved collection is `[Item(1), Item(2), Item(1)]`, preserving
order and duplicates. -/
theorem c1_witness :
    retrieve dbMain cacheItems12 mItem
        (Data.list [Data.pk 1, Data.pk 2, Data.pk 1]) =
      (.ok (.many [eItem1, eItem2, eItem1]), []) := by
  have h := (c1_retrieve_cached_hits_only dbMain cacheItems12 mItem [1, 2, 1]
      [(1, eItem1), (2, eItem2)] rfl).2
      (fun k => if k == 2 then eItem2 else eItem1) (by decide)
  simpa using h

/-! ## C8: the recursion guard empties the whole node -/

/-- C8 counterexample: field `a` of the node already holds a
placeholder while field `b` holds the raw key 5.  The claim says the
collector still returns `b`'s reference; the code executes
`fk_data = {}; break`, so the whole node collects nothing. -/
theorem c8_counterexample : get_fk_data fsAB dLazyA = [] := by
  simp [get_fk_data, collect_fields, collect_field, fsAB, dLazyA,
    fkExtractedValue, pointed_getter, assocFind, Data.truthy, Data.isLazy]

/-- Placeholders are truthy. -/
theorem Data.truthy_of_isLazy (v : Data) (h : v.isLazy = true) :
    v.truthy = true := by
  cases v <;> simp_all [Data.isLazy, Data.truthy]

/-- The single-reference branch trips the guard when the extracted
value is a placeholder. -/
theorem collect_field_fk_guard (name : String) (m : MClass) (d : Data)
    (h : (fkExtractedValue d name).isLazy = true) :
    collect_field name (RelTy.fk m) d = Option.none := by
  simp [collect_field, Data.truthy_of_isLazy _ h, h]

/-- The reference-collection branch trips the guard when the value is a
list containing a placeholder. -/
theorem collect_field_qs_guard (name : String) (m : MClass) (d : Data)
    (vs : List Data)
    (hv : pointed_getter d [Seg.field name] (Data.list []) = Data.list vs)
    (h : vs.any Data.isLazy = true) :
    collect_field name (RelTy.qs m) d = Option.none := by
  simp [collect_field, hv, h]

/-- Once one field trips the guard, the whole field loop returns the
empty map, whatever was collected before or remains after. -/
theorem collect_fields_guard (fs1 fs2 : Schema) (name : String)
    (ty : RelTy) (d : Data) (acc : FkData)
    (h : collect_field name ty d = Option.none) :
    collect_fields (fs1 ++ (name, ty) :: fs2) d acc = Option.none := by
  induction fs1 generalizing acc with
  | nil => simp [collect_fields, h]
  | cons p rest ih =>
      rw [List.cons_append]
      rw [collect_fields]
      cases hcf : collect_field p.1 p.2 d with
      | none => rfl
      | some contrib => exact ih _

/-- C8 (amended): when the resolved value of a single-reference field
(after dict primary-key extraction) is already a Lazy Value, or a
reference-collection field's list value contains one, the collector
returns the empty map for the ENTIRE current node: the recursion guard
`fk_data = {}; break` also discards the references already collected
from the node's other fields and skips the remaining fields.  (Choices
collected in enclosing nodes are unaffected, since only this node's
`get_fk_data` result is emptied.) -/
theorem c8_guard_empties_whole_node (fs1 fs2 : Schema) (name : String)
    (d : Data) :
    (∀ m : MClass, (fkExtractedValue d name).isLazy = true →
      get_fk_data (fs1 ++ (name, RelTy.fk m) :: fs2) d = []) ∧
    (∀ (m : MClass) (vs : List Data),
      pointed_getter d [Seg.field name] (Data.list []) = Data.list vs →
      vs.any Data.isLazy = true →
      get_fk_data (fs1 ++ (name, RelTy.qs m) :: fs2) d = []) := by
  constructor
  · intro m h
    rw [get_fk_data]
    by_cases ht : d.truthy
    · simp [ht, collect_fields_guard fs1 fs2 name _ d []
        (collect_field_fk_guard name m d h)]
    · simp [ht]
  · intro m vs hv h
    rw [get_fk_data]
    by_cases ht : d.truthy
    · simp [ht, collect_fields_guard fs1 fs2 name _ d []
        (collect_field_qs_guard name m d vs hv h)]
    · simp [ht]

/-- C8 witness: a reference-collection field whose list holds a
placeholder makes its node collect nothing. -/
theorem c8_witness :
    get_fk_data [("x", RelTy.qs mItem)]
      (Data.obj [("x", Data.list [Data.lazy mItem (Data.pk 1)])]) = [] := by
  refine (c8_guard_empties_whole_node [] [] "x" _).2 mItem
    [Data.lazy mItem (Data.pk 1)] ?_ ?_
  · simp [pointed_getter, assocFind]
  · simp [Data.isLazy]

/-! ## C5: missing keys -/

/-- C5 counterexample: the persistence layer has no `Item` row with key
2, and the input holds a reference COLLECTION naming key 2.  The claim
says the failure surfaces as a lookup error at resolution time; in fact
`build_cache` completes (one fetch finding nothing, key 2 absent from
the cache) and resolution also completes without error, returning the
empty collection: the missing key never raises. -/
theorem c5_counterexample :
    (build_cache true false dbNo2 [] fsItems dItems2).calls = [(mItem, [2])] ∧
    (build_cache true false dbNo2 [] fsItems dItems2).data =
      Data.obj [("items", Data.lazy mItem (Data.list [Data.pk 2]))] ∧
    fetch_cache dbNo2 (build_cache true false dbNo2 [] fsItems dItems2).cache
        (build_cache true false dbNo2 [] fsItems dItems2).data =
      .ok (Data.obj [("items", Data.list [])]) := by
  have hb : build_cache true false dbNo2 [] fsItems dItems2 =
      ⟨Data.obj [("items", Data.lazy mItem (Data.list [Data.pk 2]))],
       [(PyKey.cls mItem, [])], [(mItem, [2])]⟩ := by
    simp [build_cache, get_all_fk_data, get_fk_data, collect_fields,
      collect_field, fkExtractedValue, pointed_getter, assocFind, Data.truthy,
      Data.isLazy, fsItems, dItems2, FkData.mergeAll, FkData.add,
      FkData.withPre, mk_plainset, psUpdate, setAdd, setAddMany, fetch_loop,
      flModels, flPks, cacheGet, cacheSet, assocUpsert, mkPkMap, dbFetch,
      dbNo2, mItem, eItem1, eItem5, eCountry9, mCountry, Data.isInstOf,
      Data.asPk, subst_all, pointed_setter]
  refine ⟨by rw [hb], by rw [hb], ?_⟩
  rw [hb]
  simp [fetch_cache, fc_fields, retrieve, cacheGet, assocFind,
    Resolved.toData, Except.map]

/-- C5 (amended): for a key with no corresponding row, the collection
phase never raises: `build_cache` completes, attempts the batch fetch
once, and leaves the key absent from the batch cache.  At resolution
time the failure surfaces only for single references: resolving a
single-reference placeholder whose key is uncached and absent raises
the lookup error (`DoesNotExist`), while resolving a
reference-collection placeholder never raises — missing rows are
silently omitted from the resolved collection. -/
theorem c5_missing_key_semantics (db : DB) (c : Cache) (m : MClass)
    (entries : ModelCache) (k : Nat) (name : String) (vs : List Data) :
    (cacheGet c m = some entries → assocFind entries k = Option.none →
      dbGet db m k = Option.none →
      retrieve db c m (Data.pk k) =
        (.error (.doesNotExist m (Data.pk k)), [(m, [k])])) ∧
    (k ≠ 0 → dbFetch db m [k] = [] →
      build_cache true false db [] [(name, RelTy.fk m)]
          (Data.obj [(name, Data.pk k)]) =
        ⟨Data.obj [(name, Data.lazy m (Data.pk k))],
         [(PyKey.cls m, [])], [(m, [k])]⟩) ∧
    ((retrieve db c m (Data.list vs)).1.isOk = true ∧
      (retrieve db c m (Data.list vs)).2 = []) := by
  refine ⟨fun hc he hdb => ?_, fun hk hmiss => ?_, ?_, ?_⟩
  · simp [retrieve, hc, he, hdb, Data.asPk]
  · simp [build_cache, get_all_fk_data, get_fk_data, collect_fields,
      collect_field, fkExtractedValue, pointed_getter, assocFind, Data.truthy,
      Data.isLazy, FkData.mergeAll, FkData.add, FkData.withPre, mk_plainset,
      psUpdate, setAdd, setAddMany, fetch_loop, flModels, flPks, cacheGet,
      cacheSet, assocUpsert, mkPkMap, Data.isInstOf, Data.asPk, subst_all,
      pointed_setter, hk, hmiss]
  · simp [retrieve, Except.isOk, Except.toBool]
  · simp [retrieve]

/-- C5 witness: the three amended behaviors at the concrete missing key
2 of `dbNo2`. -/
theorem c5_witness :
    (retrieve dbNo2 [(PyKey.cls mItem, [])] mItem (Data.pk 2) =
      (.error (.doesNotExist mItem (Data.pk 2)), [(mItem, [2])])) ∧
    (build_cache true false dbNo2 [] [("owner", RelTy.fk mItem)]
        (Data.obj [("owner", Data.pk 2)]) =
      ⟨Data.obj [("owner", Data.lazy mItem (Data.pk 2))],
       [(PyKey.cls mItem, [])], [(mItem, [2])]⟩) ∧
    (retrieve dbNo2 [(PyKey.cls mItem, [])] mItem
        (Data.list [Data.pk 2])).1.isOk = true := by
  have h := c5_missing_key_semantics dbNo2 [(PyKey.cls mItem, [])] mItem []
    2 "owner" [Data.pk 2]
  refine ⟨h.1 rfl rfl ?_, h.2.1 (by decide) ?_, h.2.2.1⟩
  · simp [dbGet, dbNo2, eItem1, eItem5, eCountry9, mItem, mCountry]
  · simp [dbFetch, dbNo2, eItem1, eItem5, eCountry9, mItem, mCountry]

/-! ## C6: a key cached by an earlier pass is never fetched again -/

theorem assocFind_upsert_self {α β : Type} [BEq α] [LawfulBEq α]
    (l : List (α × β)) (a : α) (b : β) :
    assocFind (assocUpsert l a b) a = some b := by
  induction l with
  | nil => simp [assocUpsert, assocFind]
  | cons p rest ih =>
      rcases p with ⟨q, v⟩
      rw [assocUpsert]
      by_cases h : (q == a) = true
      · simp [assocFind, h]
      · simp [assocFind, h, ih]

theorem assocFind_upsert_ne {α β : Type} [BEq α] [LawfulBEq α]
    (l : List (α × β)) (a a' : α) (b : β) (h : a' ≠ a) :
    assocFind (assocUpsert l a b) a' = assocFind l a' := by
  have ha : (a == a') = false := beq_eq_false_iff_ne.mpr (Ne.symm h)
  induction l with
  | nil => simp [assocUpsert, assocFind, ha]
  | cons p rest ih =>
      rcases p with ⟨q, v⟩
      rw [assocUpsert]
      by_cases hq : (q == a) = true
      · have : q = a := eq_of_beq hq
        subst this
        simp [assocFind, ha]
      · simp [assocFind, hq, ih]

theorem assocFind_mem {α β : Type} [BEq α] [LawfulBEq α]
    (l : List (α × β)) (a : α) (b : β) (h : assocFind l a = some b) :
    (a, b) ∈ l := by
  induction l with
  | nil => simp [assocFind] at h
  | cons p rest ih =>
      rw [assocFind] at h
      by_cases hq : (p.1 == a) = true
      · have h1 : p.1 = a := eq_of_beq hq
        simp only [hq, if_true, Option.some.injEq] at h
        have : p = (a, b) := by
          cases p
          simp_all
        simp [this]
      · simp only [hq, if_false] at h
        exact List.mem_cons_of_mem _ (ih h)

theorem assocFind_upsert_isSome {α β : Type} [BEq α] [LawfulBEq α]
    (l : List (α × β)) (a a' : α) (b : β)
    (h : (assocFind l a').isSome = true) :
    (assocFind (assocUpsert l a b) a').isSome = true := by
  by_cases he : a' = a
  · subst he
    simp [assocFind_upsert_self]
  · rwa [assocFind_upsert_ne l a a' b he]

/-- Folding entities into a pk-keyed dict preserves key presence. -/
theorem pkfold_isSome (models : List Entity) (mc : ModelCache) (k : Nat)
    (h : (assocFind mc k).isSome = true) :
    (assocFind (models.foldl (fun mc e => assocUpsert mc e.pk e) mc) k).isSome
      = true := by
  induction models generalizing mc with
  | nil => simpa using h
  | cons e rest ih => exact ih _ (assocFind_upsert_isSome _ _ _ _ h)

/-- An entity poured into a pk-keyed dict makes its key present. -/
theorem pkfold_mem_isSome (models : List Entity) (mc : ModelCache)
    (e : Entity) (h : e ∈ models) :
    (assocFind (models.foldl (fun mc e => assocUpsert mc e.pk e) mc) e.pk).isSome
      = true := by
  induction models generalizing mc with
  | nil => simp at h
  | cons f rest ih =>
      simp only [List.foldl_cons]
      rcases List.mem_cons.mp h with he | he
      · subst he
        exact pkfold_isSome rest _ e.pk (by simp [assocFind_upsert_self])
      · exact ih _ he

theorem assocUpsert_pk_inv (mc : ModelCache) (e : Entity)
    (h : ∀ p ∈ mc, (p.2).pk = p.1) :
    ∀ p ∈ assocUpsert mc e.pk e, (p.2).pk = p.1 := by
  induction mc with
  | nil =>
      intro p hp
      simp only [assocUpsert, List.mem_singleton] at hp
      simp [hp]
  | cons q rest ih =>
      rw [assocUpsert]
      by_cases hq : (q.1 == e.pk) = true
      · intro p hp
        simp only [hq, if_true] at hp
        rcases List.mem_cons.mp hp with hh | hh
        · subst hh
          simpa using (eq_of_beq hq).symm
        · exact h p (List.mem_cons_of_mem _ hh)
      · intro p hp
        simp only [hq, if_false] at hp
        rcases List.mem_cons.mp hp with hh | hh
        · subst hh
          exact h _ (List.mem_cons_self _ _)
        · exact ih (fun r hr => h r (List.mem_cons_of_mem _ hr)) p hh

/-- Every entry of a pk-keyed dict built by the fetch loop stores an
entity under its own primary key. -/
theorem pkfold_pk_inv (models : List Entity) (mc : ModelCache)
    (h : ∀ p ∈ mc, (p.2).pk = p.1) :
    ∀ p ∈ models.foldl (fun mc e => assocUpsert mc e.pk e) mc,
      (p.2).pk = p.1 := by
  induction models generalizing mc with
  | nil => exact h
  | cons e rest ih => exact ih _ (assocUpsert_pk_inv mc e h)

theorem fetchedKeys_append (xs ys : List (MClass × List Nat)) (m : MClass) :
    fetchedKeys (xs ++ ys) m = fetchedKeys xs m ++ fetchedKeys ys m := by
  induction xs with
  | nil => simp [fetchedKeys]
  | cons p rest ih => simp [fetchedKeys, ih]

/-- A key whose entity is among the accumulated models is filtered out
of the fetch list of that plainset entry. -/
theorem flPks_no_known_key (c : Cache) (m : MClass) (values : List Data)
    (k : Nat) (e : Entity) (he : e ∈ flModels c m values) (hpk : e.pk = k) :
    k ∉ (flPks c m values).filterMap Data.asPk := by
  intro hk
  rcases List.mem_filterMap.mp hk with ⟨v, hv, hva⟩
  rw [flPks] at hv
  have hcont := (List.mem_filter.mp hv).2
  rw [hva] at hcont
  simp only [Bool.not_eq_true'] at hcont
  simp only [List.contains_eq_any_beq, List.any_eq_false, List.mem_map,
    beq_iff_eq, not_exists, not_and, forall_exists_index, and_imp] at hcont
  simp at hcont
  exact hcont e he hpk.symm

/-- The cached entities of a model survive one fetch-loop step as
values of the rewritten entry (under their own primary key). -/
theorem fetch_step_preserves_key (c : Cache) (m : MClass) (k : Nat)
    (m' : MClass) (values : List Data) (fetched : List Entity)
    (h : ∃ p ∈ ((cacheGet c m).getD []), (p.2).pk = k) :
    ∃ p ∈ ((cacheGet (cacheSet c m' (mkPkMap (flModels c m' values ++ fetched))) m).getD []),
      (p.2).pk = k := by
  rcases h with ⟨p, hp, hpk⟩
  by_cases hm : m' = m
  · subst hm
    rw [cacheGet, cacheSet, assocFind_upsert_self]
    have hmem : p.2 ∈ flModels c m' values ++ fetched :=
      List.mem_append_left _
        (List.mem_append_left _ (List.mem_map_of_mem _ hp))
    have hsome := pkfold_mem_isSome _ [] _ hmem
    rcases Option.isSome_iff_exists.mp hsome with ⟨v, hfind⟩
    refine ⟨(p.2.pk, v), ?_, ?_⟩
    · simpa [mkPkMap, hpk] using assocFind_mem _ _ _ hfind
    · have := pkfold_pk_inv _ [] (by simp) _ (assocFind_mem _ _ _ hfind)
      simp only at this
      rw [hpk] at this ⊢
      exact this
  · rw [cacheGet, cacheSet,
      assocFind_upsert_ne _ _ _ _
        (fun hcontra => hm (by cases hcontra; rfl))]
    exact ⟨p, hp, hpk⟩

/-- The fetch loop never requests a key whose entity is already among
the cached values of its model. -/
theorem fetch_loop_no_refetch (db : DB) (ps : PlainSet) (c : Cache)
    (m : MClass) (k : Nat)
    (h : ∃ p ∈ ((cacheGet c m).getD []), (p.2).pk = k) :
    k ∉ fetchedKeys (fetch_loop db c ps).2 m := by
  induction ps generalizing c with
  | nil => simp [fetch_loop, fetchedKeys]
  | cons entry rest ih =>
      rcases entry with ⟨m', values⟩
      rw [fetch_loop]
      dsimp only
      rw [fetchedKeys_append, List.mem_append]
      push_neg
      constructor
      · -- the head call never contains k
        by_cases hpks : (flPks c m' values).isEmpty = true
        · simp [hpks, fetchedKeys]
        · by_cases hm : m' = m
          · subst hm
            simp only [hpks, if_false, fetchedKeys, List.append_nil,
              beq_self_eq_true, if_true]
            rcases h with ⟨p, hp, hpk⟩
            exact flPks_no_known_key c m' values k p.2
              (List.mem_append_left _ (List.mem_map_of_mem _ hp)) hpk
          · have hne : (m' == m) = false := beq_eq_false_iff_ne.mpr hm
            simp [hpks, fetchedKeys, hne]
      · -- the recursive calls are covered by the invariant on c'
        exact ih _ (fetch_step_preserves_key c m k m' values _ h)

/-- C6: for two sequential `build_cache` passes over the shared cache,
a key whose entity the first pass left in the cache for model `m` is
requested by no persistence fetch of the second pass. -/
theorem c6_no_refetch_of_cached (db : DB) (c0 : Cache) (fs1 fs2 : Schema)
    (d1 d2 : Data) (m : MClass) (k : Nat)
    (h : ∃ p ∈ ((cacheGet (build_cache true true db c0 fs1 d1).cache m).getD []),
      (p.2).pk = k) :
    k ∉ fetchedKeys
      (build_cache true true db (build_cache true true db c0 fs1 d1).cache
        fs2 d2).calls m := by
  rw [build_cache]
  dsimp only
  exact fetch_loop_no_refetch db _ _ m k h

/-- C6 witness: the first pass over `{"owner": 5}` caches `Item(5)`;
the second pass over the same input performs no fetch for key 5. -/
theorem c6_witness :
    5 ∉ fetchedKeys
      (build_cache true true dbMain
        (build_cache true true dbMain [] fsOwner dOwner5).cache
        fsOwner dOwner5).calls mItem := by
  apply c6_no_refetch_of_cached
  have hc : (build_cache true true dbMain [] fsOwner dOwner5).cache =
      [(PyKey.cls mItem, [(5, eItem5)])] := by
    simp [build_cache, get_all_fk_data, get_fk_data, collect_fields,
      collect_field, fkExtractedValue, pointed_getter, assocFind, Data.truthy,
      Data.isLazy, fsOwner, dOwner5, FkData.mergeAll, FkData.add,
      FkData.withPre, mk_plainset, psUpdate, setAdd, setAddMany, fetch_loop,
      flModels, flPks, cacheGet, cacheSet, assocUpsert, mkPkMap, dbFetch,
      dbMain, mItem, mCountry, eItem1, eItem2, eItem5, eCountry9,
      Data.isInstOf, Data.asPk, subst_all, pointed_setter]
  rw [hc]
  exact ⟨(5, eItem5), by simp [cacheGet, assocFind], rfl⟩

/-! ## C2: per-type dedup, one fetch per type, instances -/

/-- The elements of a modelled Python set are pairwise distinct under
Python equality (no later element equals an earlier one). -/
def SetInv (s : List Data) : Prop :=
  List.Pairwise (fun a b => (b == a) = false) s

/-- The plainset invariant: model keys are distinct and every key set
is duplicate-free. -/
def PsInv (ps : PlainSet) : Prop :=
  ((ps.map Prod.fst).Nodup) ∧ ∀ e ∈ ps, SetInv e.2

theorem beq_pk_pk (a b : Nat) : (Data.pk a == Data.pk b) = (a == b) := by
  show Data.beq (Data.pk a) (Data.pk b) = (a == b)
  simp [Data.beq]

theorem asPk_eq_some (v : Data) (n : Nat) (h : v.asPk = some n) :
    v = Data.pk n := by
  cases v <;> simp_all [Data.asPk]

theorem setAdd_inv (s : List Data) (v : Data) (h : SetInv s) :
    SetInv (setAdd s v) := by
  rw [setAdd]
  by_cases hc : s.contains v = true
  · rw [if_pos hc]
    exact h
  · rw [if_neg hc]
    rw [SetInv] at h ⊢
    apply List.pairwise_append.mpr
    refine ⟨h, List.pairwise_singleton _ _, ?_⟩
    intro a ha w hw
    rw [List.mem_singleton] at hw
    subst hw
    rw [List.contains_eq_any_beq] at hc
    simp only [List.any_eq_true, not_exists, not_and] at hc
    simpa using hc a ha

theorem setAddMany_inv (s : List Data) (vs : List Data) (h : SetInv s) :
    SetInv (setAddMany s vs) := by
  rw [setAddMany]
  induction vs generalizing s with
  | nil => exact h
  | cons v rest ih => exact ih _ (setAdd_inv s v h)

theorem psUpdate_keys_sub (ps : PlainSet) (m : MClass)
    (f : List Data → List Data) :
    ∀ x ∈ (psUpdate ps m f).map Prod.fst, x ∈ ps.map Prod.fst ∨ x = m := by
  induction ps with
  | nil =>
      intro x hx
      simp [psUpdate] at hx
      exact Or.inr hx
  | cons q rest ih =>
      intro x hx
      rw [psUpdate] at hx
      by_cases hq : (q.1 == m) = true
      · rw [if_pos hq, List.map_cons, List.mem_cons] at hx
        rcases hx with hx | hx
        · exact Or.inl (List.mem_cons.mpr (Or.inl hx))
        · exact Or.inl (List.mem_cons.mpr (Or.inr hx))
      · rw [if_neg hq, List.map_cons, List.mem_cons] at hx
        rcases hx with hx | hx
        · exact Or.inl (List.mem_cons.mpr (Or.inl hx))
        · rcases ih x hx with h1 | h1
          · exact Or.inl (List.mem_cons.mpr (Or.inr h1))
          · exact Or.inr h1

theorem psUpdate_psInv (ps : PlainSet) (m : MClass)
    (f : List Data → List Data) (h : PsInv ps)
    (hf : ∀ s, SetInv s → SetInv (f s)) : PsInv (psUpdate ps m f) := by
  rcases h with ⟨hk, he⟩
  induction ps with
  | nil =>
      refine ⟨by simp [psUpdate], ?_⟩
      intro e hme
      simp only [psUpdate, List.mem_singleton] at hme
      rw [hme]
      exact hf [] (List.Pairwise.nil)
  | cons q rest ih =>
      rw [psUpdate]
      by_cases hq : (q.1 == m) = true
      · rw [if_pos hq]
        refine ⟨by simpa using hk, ?_⟩
        intro e hme
        rcases List.mem_cons.mp hme with h1 | h1
        · rw [h1]
          exact hf _ (he q (List.mem_cons_self _ _))
        · exact he e (List.mem_cons_of_mem _ h1)
      · rw [if_neg hq]
        have hk' : ((rest.map Prod.fst).Nodup) := (List.nodup_cons.mp hk).2
        have ihe := ih hk' (fun e hme => he e (List.mem_cons_of_mem _ hme))
        refine ⟨?_, ?_⟩
        · rw [List.map_cons, List.nodup_cons]
          refine ⟨?_, ihe.1⟩
          intro hcontra
          rcases psUpdate_keys_sub rest m f _ hcontra with h1 | h1
          · exact (List.nodup_cons.mp hk).1 h1
          · exact hq (beq_iff_eq.mpr h1)
        · intro e hme
          rcases List.mem_cons.mp hme with h1 | h1
          · rw [h1]
            exact he q (List.mem_cons_self _ _)
          · exact ihe.2 e h1

theorem foldl_psInv {β : Type} (l : List β) (step : PlainSet → β → PlainSet)
    (hstep : ∀ ps b, PsInv ps → PsInv (step ps b)) (ps : PlainSet)
    (h : PsInv ps) : PsInv (l.foldl step ps) := by
  induction l generalizing ps with
  | nil => exact h
  | cons b rest ih => exact ih _ (hstep ps b h)

/-- The plainset built by `build_cache` has distinct model keys and
duplicate-free key sets. -/
theorem mk_plainset_psInv (fk : FkData) : PsInv (mk_plainset fk) := by
  rw [mk_plainset]
  apply foldl_psInv _ _ ?_ _ ⟨by simp, by simp⟩
  intro ps p hps
  apply foldl_psInv _ _ ?_ _ hps
  intro ps t hps
  cases ht : t.2 with
  | list xs =>
      exact psUpdate_psInv _ _ _ hps (fun s hs => setAddMany_inv s xs hs)
  | none =>
      exact psUpdate_psInv _ _ _ hps (fun s hs => setAdd_inv s _ hs)
  | pk n =>
      exact psUpdate_psInv _ _ _ hps (fun s hs => setAdd_inv s _ hs)
  | inst e =>
      exact psUpdate_psInv _ _ _ hps (fun s hs => setAdd_inv s _ hs)
  | lazy m v =>
      exact psUpdate_psInv _ _ _ hps (fun s hs => setAdd_inv s _ hs)
  | obj kvs =>
      exact psUpdate_psInv _ _ _ hps (fun s hs => setAdd_inv s _ hs)

/-- A duplicate-free set of raw values yields a duplicate-free key
list. -/
theorem setInv_filterMap_asPk (l : List Data) (h : SetInv l) :
    (l.filterMap Data.asPk).Nodup := by
  induction l with
  | nil => simp
  | cons x xs ih =>
      rw [SetInv, List.pairwise_cons] at h
      rw [List.filterMap_cons]
      cases hx : x.asPk with
      | none => exact ih h.2
      | some n =>
          rw [List.nodup_cons]
          refine ⟨?_, ih h.2⟩
          intro hcontra
          rcases List.mem_filterMap.mp hcontra with ⟨b, hb, hba⟩
          have hxn : x = Data.pk n := asPk_eq_some x n hx
          have hbn : b = Data.pk n := asPk_eq_some b n hba
          have := h.1 b hb
          rw [hxn, hbn, beq_pk_pk] at this
          simp at this

theorem setInv_sublist {l₁ l₂ : List Data} (hs : l₁.Sublist l₂)
    (h : SetInv l₂) : SetInv l₁ :=
  List.Pairwise.sublist hs h

theorem flPks_sublist (c : Cache) (m : MClass) (values : List Data) :
    (flPks c m values).Sublist values := by
  rw [flPks]
  exact (List.filter_sublist _).trans (List.filter_sublist _)

theorem fetch_loop_calls_sub (db : DB) (ps : PlainSet) (c : Cache) :
    ∀ x ∈ ((fetch_loop db c ps).2.map Prod.fst), x ∈ ps.map Prod.fst := by
  induction ps generalizing c with
  | nil => simp [fetch_loop]
  | cons entry rest ih =>
      rcases entry with ⟨m, values⟩
      rw [fetch_loop]
      dsimp only
      intro x hx
      rw [List.map_append, List.mem_append] at hx
      rcases hx with hx | hx
      · by_cases hpks : (flPks c m values).isEmpty = true
        · simp [hpks] at hx
        · simp only [hpks, if_false] at hx
          simp at hx
          simp [hx]
      · exact List.mem_cons_of_mem _ (ih _ _ hx)

/-- The fetch loop issues at most one call per model, and each call
carries a duplicate-free key list. -/
theorem fetch_loop_calls_nodup (db : DB) (ps : PlainSet) (c : Cache)
    (h : PsInv ps) :
    ((fetch_loop db c ps).2.map Prod.fst).Nodup ∧
    ∀ p ∈ (fetch_loop db c ps).2, p.2.Nodup := by
  induction ps generalizing c with
  | nil => simp [fetch_loop]
  | cons entry rest ih =>
      rcases entry with ⟨m, values⟩
      rcases h with ⟨hk, he⟩
      have hrest : PsInv rest :=
        ⟨(List.nodup_cons.mp hk).2, fun e hme => he e (List.mem_cons_of_mem _ hme)⟩
      have hv : SetInv values := he (m, values) (List.mem_cons_self _ _)
      rw [fetch_loop]
      dsimp only
      constructor
      · rw [List.map_append]
        apply List.Nodup.append ?_ (ih _ hrest).1 ?_
        · by_cases hpks : (flPks c m values).isEmpty = true
          · simp [hpks]
          · simp [hpks]
        · intro x hx1 hx2
          by_cases hpks : (flPks c m values).isEmpty = true
          · simp [hpks] at hx1
          · simp [hpks] at hx1
            subst hx1
            exact (List.nodup_cons.mp hk).1 (fetch_loop_calls_sub db rest _ _ hx2)
      · intro p hp
        rw [List.mem_append] at hp
        rcases hp with hp | hp
        · by_cases hpks : (flPks c m values).isEmpty = true
          · simp [hpks] at hp
          · simp [hpks] at hp
            rw [hp]
            exact setInv_filterMap_asPk _
              (setInv_sublist (flPks_sublist c m values) hv)
        · exact (ih _ hrest).2 p hp

/-- C2 evaluation and dedup: on the input whose `owner` field holds the
full instance `Item(5)` and whose `items` collection names keys
`[1, 2, 1]`, one single batch fetch `(Item, [5, 1, 2])` is issued —
key 1 is deduplicated, but key 5 is fetched from the persistence layer
even though its entity was present as a full instance (the collector
reduced the instance to its primary key, so the instance-merging branch
of `build_cache` never sees it), contradicting the claim that such
values are merged into the cache without being re-fetched.  In
addition, for every input: the calls of one pass name pairwise distinct
models (at most one batch fetch per model) and each call's key list is
duplicate-free. -/
theorem c2_dedup_and_instance_refetch :
    ((build_cache true false dbMain [] fsOwnerItems dInst5).calls =
      [(mItem, [5, 1, 2])]) ∧
    ∀ (en sh : Bool) (db : DB) (c : Cache) (fs : Schema) (d : Data),
      (((build_cache en sh db c fs d).calls.map Prod.fst).Nodup ∧
        ∀ p ∈ (build_cache en sh db c fs d).calls, p.2.Nodup) := by
  constructor
  · simp [build_cache, get_all_fk_data, get_fk_data, collect_fields,
      collect_field, fkExtractedValue, pointed_getter, assocFind, Data.truthy,
      Data.isLazy, fsOwnerItems, dInst5, FkData.mergeAll, FkData.add,
      FkData.withPre, mk_plainset, psUpdate, setAdd, setAddMany, fetch_loop,
      flModels, flPks, cacheGet, cacheSet, assocUpsert, mkPkMap, dbFetch,
      dbMain, mItem, mCountry, eItem1, eItem2, eItem5, eCountry9,
      Data.isInstOf, Data.asPk, subst_all, pointed_setter, pk_attname,
      beq_pk_pk, List.contains_eq_any_beq]
  · intro en sh db c fs d
    cases en with
    | false => simp [build_cache]
    | true =>
        rw [build_cache]
        dsimp only
        exact fetch_loop_calls_nodup db _ _ (mk_plainset_psInv _)

/-- C2 witness: the dedup facts instantiated at the evaluated input. -/
theorem c2_witness :
    (((build_cache true false dbMain [] fsOwnerItems dInst5).calls.map
      Prod.fst).Nodup) ∧ ([5, 1, 2] : List Nat).Nodup := by
  have h := c2_dedup_and_instance_refetch
  refine ⟨(h.2 true false dbMain [] fsOwnerItems dInst5).1, ?_⟩
  have hm := (h.2 true false dbMain [] fsOwnerItems dInst5).2
    (mItem, [5, 1, 2]) (by rw [h.1]; exact List.mem_singleton_self _)
  exact hm

/-! ## C9: nested-single path fidelity -/

theorem dbGet_of_dbFetch_single (db : DB) (m : MClass) (k : Nat) (e : Entity)
    (h : dbFetch db m [k] = [e]) : dbGet db m k = some e := by
  rw [dbGet]
  have hf : db.filter (fun x => x.typ == m && x.pk == k) =
      db.filter (fun x => x.typ == m && [k].contains x.pk) := by
    apply List.filter_congr
    intro x hx
    simp only [List.contains_eq_any_beq, List.any_cons, List.any_nil,
      Bool.or_false]
  rw [hf]
  rw [dbFetch] at h
  rw [h]
  rfl

/-- C9: for a nested-single field `addr` whose structured sub-type has
a single-reference field `country`, and an input holding a raw key at
`addr.country`: the collector records exactly the dot-joined path
`addr.country` with that key; `build_cache` writes the placeholder back
at exactly that recorded path; and after both phases the value at the
path resolves to the same entity that a direct fetch
(`_default_manager.get(pk=k)`) of the raw key would produce. -/
theorem c9_nested_single_path_fidelity (addr country : String) (m : MClass)
    (k : Nat) (e : Entity) (db : DB) (hk : k ≠ 0) (hpk : e.pk = k)
    (he : dbFetch db m [k] = [e]) :
    (get_all_fk_data [(addr, RelTy.rel [(country, RelTy.fk m)])]
        (Data.obj [(addr, Data.obj [(country, Data.pk k)])]) =
      [(m, [([Seg.field addr, Seg.field country], Data.pk k)])]) ∧
    (Path.render [Seg.field addr, Seg.field country] =
      addr ++ "." ++ country) ∧
    ((build_cache true false db []
        [(addr, RelTy.rel [(country, RelTy.fk m)])]
        (Data.obj [(addr, Data.obj [(country, Data.pk k)])])).data =
      Data.obj [(addr, Data.obj [(country, Data.lazy m (Data.pk k))])]) ∧
    (fetch_cache db
        (build_cache true false db []
          [(addr, RelTy.rel [(country, RelTy.fk m)])]
          (Data.obj [(addr, Data.obj [(country, Data.pk k)])])).cache
        (build_cache true false db []
          [(addr, RelTy.rel [(country, RelTy.fk m)])]
          (Data.obj [(addr, Data.obj [(country, Data.pk k)])])).data =
      .ok (Data.obj [(addr, Data.obj [(country, Data.inst e)])])) ∧
    dbGet db m k = some e := by
  have hb : build_cache true false db []
      [(addr, RelTy.rel [(country, RelTy.fk m)])]
      (Data.obj [(addr, Data.obj [(country, Data.pk k)])]) =
      ⟨Data.obj [(addr, Data.obj [(country, Data.lazy m (Data.pk k))])],
       [(PyKey.cls m, [(k, e)])], [(m, [k])]⟩ := by
    simp [build_cache, get_all_fk_data, get_fk_data, collect_fields,
      collect_field, fkExtractedValue, pointed_getter, assocFind, Data.truthy,
      Data.isLazy, FkData.mergeAll, FkData.add, FkData.withPre, mk_plainset,
      psUpdate, setAdd, setAddMany, fetch_loop, flModels, flPks, cacheGet,
      cacheSet, assocUpsert, mkPkMap, Data.isInstOf, Data.asPk, subst_all,
      pointed_setter, pk_attname, hk, he, hpk]
  refine ⟨?_, ?_, by rw [hb], ?_, dbGet_of_dbFetch_single db m k e he⟩
  · simp [get_all_fk_data, get_fk_data, collect_fields, collect_field,
      fkExtractedValue, pointed_getter, assocFind, Data.truthy, Data.isLazy,
      FkData.mergeAll, FkData.add, FkData.withPre, Data.asPk, hk, pk_attname]
  · simp [Path.render, Seg.render, String.intercalate, String.intercalate.go]
  · rw [hb]
    simp [fetch_cache, fc_fields, retrieve, cacheGet, assocFind,
      Resolved.toData, Except.map, Data.asPk]

/-- C9 witness: the scenario `{"address": {"country": 9}}` against the
concrete persistence layer. -/
theorem c9_witness :
    ((build_cache true false dbMain []
        [("address", RelTy.rel [("country", RelTy.fk mCountry)])]
        (Data.obj [("address", Data.obj [("country", Data.pk 9)])])).data =
      Data.obj [("address",
        Data.obj [("country", Data.lazy mCountry (Data.pk 9))])]) ∧
    (Path.render [Seg.field "address", Seg.field "country"] =
      "address.country") ∧
    (fetch_cache dbMain
        (build_cache true false dbMain []
          [("address", RelTy.rel [("country", RelTy.fk mCountry)])]
          (Data.obj [("address", Data.obj [("country", Data.pk 9)])])).cache
        (build_cache true false dbMain []
          [("address", RelTy.rel [("country", RelTy.fk mCountry)])]
          (Data.obj [("address", Data.obj [("country", Data.pk 9)])])).data =
      .ok (Data.obj [("address",
        Data.obj [("country", Data.inst eCountry9)])])) := by
  have h := c9_nested_single_path_fidelity "address" "country" mCountry 9
    eCountry9 dbMain (by decide) rfl (by decide)
  exact ⟨h.2.2.1, by rw [h.2.1]; rfl, h.2.2.2.1⟩

/-! ## C3: helper lemmas on write lists and their projections -/

theorem applyAll_nil (d : Data) : applyAll [] d = d := rfl

theorem applyAll_cons (t : Path × Data) (σ : List (Path × Data)) (d : Data) :
    applyAll (t :: σ) d = applyAll σ (pointed_setter d t.1 t.2) := rfl

theorem applyAll_append (σ1 σ2 : List (Path × Data)) (d : Data) :
    applyAll (σ1 ++ σ2) d = applyAll σ2 (applyAll σ1 d) := by
  simp [applyAll, List.foldl_append]

theorem projField_nil (f : String) : projField f [] = [] := rfl

theorem projIdx_nil (i : Nat) : projIdx i [] = [] := rfl

theorem projField_append (f : String) (σ1 σ2 : List (Path × Data)) :
    projField f (σ1 ++ σ2) = projField f σ1 ++ projField f σ2 := by
  simp [projField]

theorem projIdx_append (i : Nat) (σ1 σ2 : List (Path × Data)) :
    projIdx i (σ1 ++ σ2) = projIdx i σ1 ++ projIdx i σ2 := by
  simp [projIdx]

theorem projField_perm (f : String) {σ σ' : List (Path × Data)}
    (h : σ.Perm σ') : (projField f σ).Perm (projField f σ') :=
  h.filterMap _

theorem projIdx_perm (i : Nat) {σ σ' : List (Path × Data)}
    (h : σ.Perm σ') : (projIdx i σ).Perm (projIdx i σ') :=
  h.filterMap _

/-- Projecting a field out of writes all prefixed with that same field
name recovers the unprefixed writes. -/
theorem projField_pre_self (f : String) (σ : List (Path × Data)) :
    projField f (σ.map (fun t => (Seg.field f :: t.1, t.2))) = σ := by
  induction σ with
  | nil => rfl
  | cons t rest ih =>
      simp only [List.map_cons, projField, List.filterMap_cons] at ih ⊢
      simp only [beq_self_eq_true, if_true]
      rw [ih]

theorem projField_pre_ne (f g : String) (hg : g ≠ f)
    (σ : List (Path × Data)) :
    projField f (σ.map (fun t => (Seg.field g :: t.1, t.2))) = [] := by
  induction σ with
  | nil => rfl
  | cons t rest ih =>
      simp only [List.map_cons, projField, List.filterMap_cons] at ih ⊢
      have : (g == f) = false := beq_eq_false_iff_ne.mpr hg
      simp only [this, if_false]
      exact ih

theorem projField_pre_idx (f : String) (i : Nat) (σ : List (Path × Data)) :
    projField f (σ.map (fun t => (Seg.idx i :: t.1, t.2))) = [] := by
  induction σ with
  | nil => rfl
  | cons t rest ih =>
      simp only [List.map_cons, projField, List.filterMap_cons] at ih ⊢
      exact ih

theorem projIdx_pre_self (i : Nat) (σ : List (Path × Data)) :
    projIdx i (σ.map (fun t => (Seg.idx i :: t.1, t.2))) = σ := by
  induction σ with
  | nil => rfl
  | cons t rest ih =>
      simp only [List.map_cons, projIdx, List.filterMap_cons] at ih ⊢
      simp only [beq_self_eq_true, if_true]
      rw [ih]

theorem projIdx_pre_ne (i j : Nat) (hj : j ≠ i) (σ : List (Path × Data)) :
    projIdx i (σ.map (fun t => (Seg.idx j :: t.1, t.2))) = [] := by
  induction σ with
  | nil => rfl
  | cons t rest ih =>
      simp only [List.map_cons, projIdx, List.filterMap_cons] at ih ⊢
      have : (j == i) = false := beq_eq_false_iff_ne.mpr hj
      simp only [this, if_false]
      exact ih

theorem projIdx_pre_field (i : Nat) (f : String) (σ : List (Path × Data)) :
    projIdx i (σ.map (fun t => (Seg.field f :: t.1, t.2))) = [] := by
  induction σ with
  | nil => rfl
  | cons t rest ih =>
      simp only [List.map_cons, projIdx, List.filterMap_cons] at ih ⊢
      exact ih

/-- The model-major substitution loop is the fold of the flat write
list. -/
theorem subst_all_eq_applyAll (fk : FkData) (d : Data) :
    subst_all fk d = applyAll (flattenFk fk) d := by
  induction fk generalizing d with
  | nil => rfl
  | cons p rest ih =>
      have h1 : subst_all (p :: rest) d =
          subst_all rest
            (p.2.foldl
              (fun d t => pointed_setter d t.1 (Data.lazy p.1 t.2)) d) := rfl
      rw [h1, ih, flattenFk, applyAll_append]
      congr 1
      rw [applyAll, List.foldl_map]

theorem flattenFk_add_perm (fk : FkData) (m : MClass)
    (ts : List (Path × Data)) :
    (flattenFk (FkData.add fk m ts)).Perm
      (flattenFk fk ++ ts.map (fun t => (t.1, Data.lazy m t.2))) := by
  induction fk with
  | nil => simp [FkData.add, flattenFk]
  | cons p rest ih =>
      rw [FkData.add]
      by_cases hp : (p.1 == m) = true
      · rw [if_pos hp]
        have hm : p.1 = m := eq_of_beq hp
        subst hm
        simp only [flattenFk, List.map_append, List.append_assoc]
        exact List.Perm.append_left _ List.perm_append_comm
      · rw [if_neg hp]
        simp only [flattenFk, List.append_assoc]
        exact List.Perm.append_left _ ih

theorem mergeAll_nil (fk : FkData) : fk.mergeAll [] = fk := rfl

theorem flattenFk_mergeAll_perm (child fk : FkData) :
    (flattenFk (fk.mergeAll child)).Perm
      (flattenFk fk ++ flattenFk child) := by
  induction child generalizing fk with
  | nil => simp [mergeAll_nil, flattenFk]
  | cons c rest ih =>
      have h0 : FkData.mergeAll fk (c :: rest) =
          FkData.mergeAll (FkData.add fk c.1 c.2) rest := rfl
      rw [h0]
      refine (ih (FkData.add fk c.1 c.2)).trans ?_
      refine ((flattenFk_add_perm fk c.1 c.2).append_right _).trans ?_
      simp only [flattenFk, List.append_assoc]
      exact List.Perm.refl _

theorem flattenFk_withPre (fk : FkData) (pre : Path) :
    flattenFk (FkData.withPre fk pre) =
      (flattenFk fk).map (fun t => (pre ++ t.1, t.2)) := by
  induction fk with
  | nil => rfl
  | cons p rest ih =>
      simp only [FkData.withPre] at ih ⊢
      simp only [List.map_cons, flattenFk]
      rw [ih]
      simp [List.map_map, Function.comp]

theorem pget_obj_single (kvs : List (String × Data)) (f : String)
    (dflt : Data) :
    pointed_getter (Data.obj kvs) [Seg.field f] dflt =
      match assocFind kvs f with
      | some v => v
      | Option.none => dflt := by
  rw [pointed_getter]
  cases assocFind kvs f <;> simp [pointed_getter]

theorem assocUpsert_length_le {α β : Type} [BEq α]
    (l : List (α × β)) (a : α) (b : β) :
    l.length ≤ (assocUpsert l a b).length := by
  induction l with
  | nil => simp [assocUpsert]
  | cons p rest ih =>
      rw [assocUpsert]
      by_cases hp : (p.1 == a) = true
      · rw [if_pos hp]; simp
      · rw [if_neg hp]; simpa using ih

/-- A write list whose paths are nonempty keeps a dict node a dict and
never shrinks it. -/
theorem applyAll_obj_shape (σ : List (Path × Data)) :
    ∀ kvs : List (String × Data), (∀ t ∈ σ, t.1 ≠ []) →
    ∃ kvs', applyAll σ (Data.obj kvs) = Data.obj kvs' ∧
      kvs.length ≤ kvs'.length := by
  induction σ with
  | nil => intro kvs h; exact ⟨kvs, rfl, le_rfl⟩
  | cons t σ' ih =>
      intro kvs h
      obtain ⟨p, v⟩ := t
      have hne := h (p, v) (List.mem_cons_self _ _)
      have h' : ∀ t ∈ σ', t.1 ≠ [] := fun t ht => h t (List.mem_cons_of_mem _ ht)
      rw [applyAll_cons]
      cases p with
      | nil => exact absurd rfl hne
      | cons seg rest =>
          cases seg with
          | idx i =>
              have hset : pointed_setter (Data.obj kvs) (Seg.idx i :: rest) v =
                  Data.obj kvs := by cases rest <;> rfl
              rw [hset]
              exact ih kvs h'
          | field g =>
              cases rest with
              | nil =>
                  have hset : pointed_setter (Data.obj kvs) [Seg.field g] v =
                      Data.obj (assocUpsert kvs g v) := rfl
                  rw [hset]
                  obtain ⟨kvs', hk, hl⟩ := ih (assocUpsert kvs g v) h'
                  exact ⟨kvs', hk, (assocUpsert_length_le kvs g v).trans hl⟩
              | cons s2 r2 =>
                  cases hfind : assocFind kvs g with
                  | some child =>
                      have hset : pointed_setter (Data.obj kvs)
                          (Seg.field g :: s2 :: r2) v =
                          Data.obj (assocUpsert kvs g
                            (pointed_setter child (s2 :: r2) v)) := by
                        simp [pointed_setter, hfind]
                      rw [hset]
                      obtain ⟨kvs', hk, hl⟩ := ih _ h'
                      exact ⟨kvs', hk, (assocUpsert_length_le kvs g _).trans hl⟩
                  | none =>
                      have hset : pointed_setter (Data.obj kvs)
                          (Seg.field g :: s2 :: r2) v = Data.obj kvs := by
                        simp [pointed_setter, hfind]
                      rw [hset]
                      exact ih kvs h'

/-- Routing a write list through one dict field: the value later read
at that field is the original value with the field's own writes
applied, or — when the key was absent — the result of the creating run
of those writes. -/
theorem applyAll_obj_field (σ : List (Path × Data)) :
    ∀ (kvs : List (String × Data)) (f : String) (dflt : Data),
    (∀ t ∈ σ, t.1 ≠ []) →
    pointed_getter (applyAll σ (Data.obj kvs)) [Seg.field f] dflt =
      (match assocFind kvs f with
       | some x => applyAll (projField f σ) x
       | Option.none => createRun (projField f σ) dflt) := by
  induction σ with
  | nil =>
      intro kvs f dflt h
      rw [applyAll_nil, pget_obj_single]
      cases assocFind kvs f <;> simp [projField_nil, createRun, applyAll_nil]
  | cons t σ' ih =>
      intro kvs f dflt h
      obtain ⟨p, v⟩ := t
      have hne := h (p, v) (List.mem_cons_self _ _)
      have h' : ∀ t ∈ σ', t.1 ≠ [] := fun t ht => h t (List.mem_cons_of_mem _ ht)
      rw [applyAll_cons]
      cases p with
      | nil => exact absurd rfl hne
      | cons seg rest =>
          cases seg with
          | idx i =>
              have hset : pointed_setter (Data.obj kvs) (Seg.idx i :: rest) v =
                  Data.obj kvs := by cases rest <;> rfl
              have hproj : projField f ((Seg.idx i :: rest, v) :: σ') =
                  projField f σ' := by simp [projField]
              rw [hset, hproj, ih kvs f dflt h']
          | field g =>
              by_cases hg : (g == f) = true
              · have hgf : g = f := eq_of_beq hg
                subst hgf
                have hproj : projField g ((Seg.field g :: rest, v) :: σ') =
                    (rest, v) :: projField g σ' := by simp [projField]
                rw [hproj]
                cases rest with
                | nil =>
                    have hset : pointed_setter (Data.obj kvs) [Seg.field g] v =
                        Data.obj (assocUpsert kvs g v) := rfl
                    rw [hset, ih _ g dflt h', assocFind_upsert_self]
                    cases hfind : assocFind kvs g with
                    | none => simp [createRun, applyAll_cons, pointed_setter]
                    | some x => simp [applyAll_cons, pointed_setter]
                | cons s2 r2 =>
                    cases hfind : assocFind kvs g with
                    | some child =>
                        have hset : pointed_setter (Data.obj kvs)
                            (Seg.field g :: s2 :: r2) v =
                            Data.obj (assocUpsert kvs g
                              (pointed_setter child (s2 :: r2) v)) := by
                          simp [pointed_setter, hfind]
                        rw [hset, ih _ g dflt h', assocFind_upsert_self]
                        simp [applyAll_cons]
                    | none =>
                        have hset : pointed_setter (Data.obj kvs)
                            (Seg.field g :: s2 :: r2) v = Data.obj kvs := by
                          simp [pointed_setter, hfind]
                        rw [hset, ih _ g dflt h', hfind]
                        simp [createRun]
              · have hgf : f ≠ g := by
                  intro he
                  exact absurd (beq_iff_eq.mpr he.symm) hg
                have hproj : projField f ((Seg.field g :: rest, v) :: σ') =
                    projField f σ' := by simp [projField, Ne.symm hgf]
                rw [hproj]
                cases rest with
                | nil =>
                    have hset : pointed_setter (Data.obj kvs) [Seg.field g] v =
                        Data.obj (assocUpsert kvs g v) := rfl
                    rw [hset, ih _ f dflt h', assocFind_upsert_ne kvs g f v hgf]
                | cons s2 r2 =>
                    cases hfind : assocFind kvs g with
                    | some child =>
                        have hset : pointed_setter (Data.obj kvs)
                            (Seg.field g :: s2 :: r2) v =
                            Data.obj (assocUpsert kvs g
                              (pointed_setter child (s2 :: r2) v)) := by
                          simp [pointed_setter, hfind]
                        rw [hset, ih _ f dflt h',
                          assocFind_upsert_ne kvs g f _ hgf]
                    | none =>
                        have hset : pointed_setter (Data.obj kvs)
                            (Seg.field g :: s2 :: r2) v = Data.obj kvs := by
                          simp [pointed_setter, hfind]
                        rw [hset, ih _ f dflt h']

/-- Routing a write list through a list node: elements are rewritten
independently by the writes projected to their index. -/
theorem applyAll_list_get (σ : List (Path × Data)) :
    ∀ xs : List Data, (∀ t ∈ σ, t.1 ≠ []) →
    ∃ ys, applyAll σ (Data.list xs) = Data.list ys ∧
      ys.length = xs.length ∧
      ∀ i x, xs.get? i = some x →
        ys.get? i = some (applyAll (projIdx i σ) x) := by
  induction σ with
  | nil =>
      intro xs h
      refine ⟨xs, rfl, rfl, ?_⟩
      intro i x hx
      simpa [projIdx_nil, applyAll_nil] using hx
  | cons t σ' ih =>
      intro xs h
      obtain ⟨p, v⟩ := t
      have hne := h (p, v) (List.mem_cons_self _ _)
      have h' : ∀ t ∈ σ', t.1 ≠ [] := fun t ht => h t (List.mem_cons_of_mem _ ht)
      rw [applyAll_cons]
      cases p with
      | nil => exact absurd rfl hne
      | cons seg rest =>
          cases seg with
          | field g =>
              have hset : pointed_setter (Data.list xs) (Seg.field g :: rest) v =
                  Data.list xs := by cases rest <;> rfl
              rw [hset]
              obtain ⟨ys, hy, hlen, hel⟩ := ih xs h'
              refine ⟨ys, hy, hlen, ?_⟩
              intro i x hx
              have hproj : projIdx i ((Seg.field g :: rest, v) :: σ') =
                  projIdx i σ' := by simp [projIdx]
              rw [hproj]
              exact hel i x hx
          | idx j =>
              cases rest with
              | nil =>
                  have hset : pointed_setter (Data.list xs) [Seg.idx j] v =
                      Data.list (xs.set j v) := rfl
                  rw [hset]
                  obtain ⟨ys, hy, hlen, hel⟩ := ih (xs.set j v) h'
                  refine ⟨ys, hy, by simpa using hlen, ?_⟩
                  intro i x hx
                  by_cases hij : j = i
                  · subst hij
                    have hlt : j < xs.length := List.get?_eq_some.mp hx |>.1
                    have h2 := hel j v (List.get?_set_eq_of_lt v hlt)
                    have hproj : projIdx j ((Seg.idx j :: [], v) :: σ') =
                        ([], v) :: projIdx j σ' := by simp [projIdx]
                    rw [hproj, applyAll_cons]
                    simpa [pointed_setter] using h2
                  · have h2 := hel i x (by rw [List.get?_set_ne _ _ hij]; exact hx)
                    have hproj : projIdx i ((Seg.idx j :: [], v) :: σ') =
                        projIdx i σ' := by
                      simp [projIdx, hij]
                    rw [hproj]
                    exact h2
              | cons s2 r2 =>
                  cases hget : xs[j]? with
                  | some child =>
                      have hget' : xs.get? j = some child := by
                        rw [List.get?_eq_getElem?, hget]
                      have hset : pointed_setter (Data.list xs)
                          (Seg.idx j :: s2 :: r2) v =
                          Data.list (xs.set j
                            (pointed_setter child (s2 :: r2) v)) := by
                        simp [pointed_setter, hget]
                      rw [hset]
                      obtain ⟨ys, hy, hlen, hel⟩ := ih _ h'
                      refine ⟨ys, hy, by simpa using hlen, ?_⟩
                      intro i x hx
                      by_cases hij : j = i
                      · subst hij
                        have hx' : x = child := by
                          rw [hget'] at hx
                          exact (Option.some.injEq _ _ ▸ hx).symm
                        subst hx'
                        have h2 := hel j (pointed_setter x (s2 :: r2) v)
                          (List.get?_set_eq_of_lt _
                            (List.get?_eq_some.mp hget' |>.1))
                        have hproj : projIdx j ((Seg.idx j :: s2 :: r2, v) :: σ') =
                            (s2 :: r2, v) :: projIdx j σ' := by simp [projIdx]
                        rw [hproj, applyAll_cons]
                        exact h2
                      · have h2 := hel i x (by
                          rw [List.get?_set_ne _ _ hij]
                          exact hx)
                        have hproj : projIdx i ((Seg.idx j :: s2 :: r2, v) :: σ') =
                            projIdx i σ' := by
                          simp [projIdx, hij]
                        rw [hproj]
                        exact h2
                  | none =>
                      have hget' : xs.get? j = Option.none := by
                        rw [List.get?_eq_getElem?, hget]
                      have hset : pointed_setter (Data.list xs)
                          (Seg.idx j :: s2 :: r2) v = Data.list xs := by
                        simp [pointed_setter, hget]
                      rw [hset]
                      obtain ⟨ys, hy, hlen, hel⟩ := ih xs h'
                      refine ⟨ys, hy, hlen, ?_⟩
                      intro i x hx
                      by_cases hij : j = i
                      · subst hij
                        rw [hget'] at hx
                        exact absurd hx (by simp)
                      · have hproj : projIdx i ((Seg.idx j :: s2 :: r2, v) :: σ') =
                            projIdx i σ' := by
                          simp [projIdx, hij]
                        rw [hproj]
                        exact hel i x hx

/-! The `Writes` invariant only constrains projections of the write
list, so it is stable under permutation.  The mutual induction is run
on explicit size bounds via three schema-indexed predicates. -/

/-- Permutation invariance of `Writes` at a fixed schema. -/
def PermInvW (fs : Schema) : Prop :=
  ∀ d σ σ', σ.Perm σ' → Writes fs d σ → Writes fs d σ'

/-- Permutation invariance of `WritesList` at a fixed schema. -/
def PermInvWL (fs : Schema) : Prop :=
  ∀ xs i σ σ', σ.Perm σ' → WritesList fs xs i σ → WritesList fs xs i σ'

/-- Permutation invariance of `WritesFields` at a fixed field list. -/
def PermInvWF (fsa : Schema) : Prop :=
  ∀ fs0 d σ σ', σ.Perm σ' → WritesFields fsa fs0 d σ → WritesFields fsa fs0 d σ'

theorem sizeOf_schema_pos (fs : Schema) : 1 ≤ sizeOf fs := by
  cases fs <;> simp <;> omega

theorem sizeOf_data_pos (d : Data) : 1 ≤ sizeOf d := by
  cases d <;> simp <;> omega

theorem sizeOf_dataList_pos (xs : List Data) : 1 ≤ sizeOf xs := by
  cases xs <;> simp <;> omega

/-- `WritesFields` is permutation-invariant provided `Writes` and
`WritesList` are at every strictly smaller nested schema. -/
theorem permInvWF_of : ∀ (fsa : Schema),
    (∀ cf, sizeOf cf < sizeOf fsa → PermInvW cf ∧ PermInvWL cf) →
    PermInvWF fsa := by
  intro fsa
  induction fsa with
  | nil =>
      intro _ fs0 d σ σ' hp h
      rw [WritesFields.eq_def] at h ⊢
      trivial
  | cons p rest ih =>
      intro hIH fs0 d σ σ' hp h
      obtain ⟨f, ty⟩ := p
      rw [WritesFields.eq_def] at h ⊢
      obtain ⟨h1, h2⟩ := h
      have hrs : sizeOf rest < sizeOf ((f, ty) :: rest) := by simp <;> omega
      refine ⟨?_, ih (fun cf hlt => hIH cf (by omega)) fs0 d σ σ' hp h2⟩
      have hpf := projField_perm f hp
      cases ty with
      | fk m =>
          by_cases ht : (fkExtractedValue d f).truthy = true
          · simp only [if_pos ht] at h1 ⊢
            obtain ⟨mv, vv, hv⟩ := h1
            exact ⟨mv, vv, List.perm_singleton.mp (hv ▸ hpf.symm)⟩
          · simp only [if_neg ht] at h1 ⊢
            exact List.perm_nil.mp (h1 ▸ hpf.symm)
      | qs m =>
          cases hv : pointed_getter d [Seg.field f] (Data.list []) with
          | list vs =>
              simp only [hv] at h1
              obtain ⟨mv, vv, hvv⟩ := h1
              exact ⟨mv, vv, List.perm_singleton.mp (hvv ▸ hpf.symm)⟩
          | none =>
              simp only [hv] at h1
              exact List.perm_nil.mp (h1 ▸ hpf.symm)
          | pk n =>
              simp only [hv] at h1
              exact List.perm_nil.mp (h1 ▸ hpf.symm)
          | inst e =>
              simp only [hv] at h1
              exact List.perm_nil.mp (h1 ▸ hpf.symm)
          | lazy m2 v2 =>
              simp only [hv] at h1
              exact List.perm_nil.mp (h1 ▸ hpf.symm)
          | obj kvs =>
              simp only [hv] at h1
              exact List.perm_nil.mp (h1 ▸ hpf.symm)
      | rel cf =>
          have hlt : sizeOf cf < sizeOf ((f, RelTy.rel cf) :: rest) := by
            simp <;> omega
          exact (hIH cf hlt).1 _ _ _ hpf h1
      | rel_l cf =>
          have hlt : sizeOf cf < sizeOf ((f, RelTy.rel_l cf) :: rest) := by
            simp <;> omega
          cases hv : pointed_getter d [Seg.field f] (Data.list []) with
          | list vs =>
              simp only [hv] at h1
              exact ⟨(hIH cf hlt).2 vs 0 _ _ hpf h1.1,
                fun t ht => h1.2 t (hpf.mem_iff.mpr ht)⟩
          | none =>
              simp only [hv] at h1
              exact List.perm_nil.mp (h1 ▸ hpf.symm)
          | pk n =>
              simp only [hv] at h1
              exact List.perm_nil.mp (h1 ▸ hpf.symm)
          | inst e =>
              simp only [hv] at h1
              exact List.perm_nil.mp (h1 ▸ hpf.symm)
          | lazy m2 v2 =>
              simp only [hv] at h1
              exact List.perm_nil.mp (h1 ▸ hpf.symm)
          | obj kvs =>
              simp only [hv] at h1
              exact List.perm_nil.mp (h1 ▸ hpf.symm)

/-- Inner induction: at a fixed schema whose field conditions are
already permutation-invariant, `Writes` and `WritesList` are
permutation-invariant, by induction on a bound on the data size. -/
theorem permInvW_core : ∀ (b : Nat) (fs : Schema), PermInvWF fs →
    (∀ d σ σ', sizeOf d ≤ b → σ.Perm σ' → Writes fs d σ → Writes fs d σ') ∧
    (∀ xs i σ σ', sizeOf xs ≤ b → σ.Perm σ' →
      WritesList fs xs i σ → WritesList fs xs i σ') := by
  intro b
  induction b with
  | zero =>
      intro fs _
      constructor
      · intro d σ σ' hb
        exact absurd hb (by have := sizeOf_data_pos d; omega)
      · intro xs i σ σ' hb
        exact absurd hb (by have := sizeOf_dataList_pos xs; omega)
  | succ b ihb =>
      intro fs hC
      constructor
      · intro d σ σ' hb hp h
        rw [Writes.eq_def] at h ⊢
        obtain ⟨hne, hbody⟩ := h
        refine ⟨fun t ht => hne t (hp.mem_iff.mpr ht), ?_⟩
        cases d with
        | list xs =>
            have hxs : sizeOf xs ≤ b := by simp at hb <;> omega
            exact ((ihb fs hC).2) xs 0 σ σ' hxs hp hbody
        | none => exact List.perm_nil.mp (hbody ▸ hp.symm : σ'.Perm [])
        | pk n =>
            by_cases ht : (Data.pk n).truthy = true
            · cases hc : collect_fields fs (Data.pk n) [] with
              | none =>
                  simp only [if_pos ht, hc] at hbody ⊢
                  exact List.perm_nil.mp (hbody ▸ hp.symm : σ'.Perm [])
              | some r =>
                  simp only [if_pos ht, hc] at hbody ⊢
                  exact hC fs (Data.pk n) σ σ' hp hbody
            · simp only [if_neg ht] at hbody ⊢
              exact List.perm_nil.mp (hbody ▸ hp.symm : σ'.Perm [])
        | inst e =>
            cases hc : collect_fields fs (Data.inst e) [] with
            | none =>
                simp only [hc] at hbody ⊢
                exact List.perm_nil.mp (hbody ▸ hp.symm : σ'.Perm [])
            | some r =>
                simp only [hc] at hbody ⊢
                exact hC fs (Data.inst e) σ σ' hp hbody
        | lazy m v =>
            cases hc : collect_fields fs (Data.lazy m v) [] with
            | none =>
                simp only [hc] at hbody ⊢
                exact List.perm_nil.mp (hbody ▸ hp.symm : σ'.Perm [])
            | some r =>
                simp only [hc] at hbody ⊢
                exact hC fs (Data.lazy m v) σ σ' hp hbody
        | obj kvs =>
            by_cases ht : (Data.obj kvs).truthy = true
            · cases hc : collect_fields fs (Data.obj kvs) [] with
              | none =>
                  simp only [if_pos ht, hc] at hbody ⊢
                  exact List.perm_nil.mp (hbody ▸ hp.symm : σ'.Perm [])
              | some r =>
                  simp only [if_pos ht, hc] at hbody ⊢
                  exact hC fs (Data.obj kvs) σ σ' hp hbody
            · simp only [if_neg ht] at hbody ⊢
              exact List.perm_nil.mp (hbody ▸ hp.symm : σ'.Perm [])
      · intro xs i σ σ' hb hp h
        rw [WritesList.eq_def] at h ⊢
        cases xs with
        | nil => trivial
        | cons x rest =>
            have hx : sizeOf x ≤ b := by simp at hb <;> omega
            have hr : sizeOf rest ≤ b := by simp at hb <;> omega
            exact ⟨((ihb fs hC).1) x _ _ hx (projIdx_perm i hp) h.1,
              ((ihb fs hC).2) rest (i + 1) σ σ' hr hp h.2⟩

/-- Outer induction on a bound on the schema size. -/
theorem permInvW_all : ∀ (a : Nat) (fs : Schema), sizeOf fs ≤ a →
    PermInvW fs ∧ PermInvWL fs := by
  intro a
  induction a with
  | zero =>
      intro fs hle
      exact absurd hle (by have := sizeOf_schema_pos fs; omega)
  | succ a iha =>
      intro fs hle
      have hC : PermInvWF fs :=
        permInvWF_of fs (fun cf hlt => iha cf (by omega))
      constructor
      · intro d σ σ' hp h
        exact ((permInvW_core (sizeOf d) fs hC).1) d σ σ' le_rfl hp h
      · intro xs i σ σ' hp h
        exact ((permInvW_core (sizeOf xs) fs hC).2) xs i σ σ' le_rfl hp h

theorem writes_perm (fs : Schema) (d : Data) (σ σ' : List (Path × Data))
    (hp : σ.Perm σ') (h : Writes fs d σ) : Writes fs d σ' :=
  ((permInvW_all (sizeOf fs) fs le_rfl).1) d σ σ' hp h

theorem writesList_perm (fs : Schema) (xs : List Data) (i : Nat)
    (σ σ' : List (Path × Data)) (hp : σ.Perm σ')
    (h : WritesList fs xs i σ) : WritesList fs xs i σ' :=
  ((permInvW_all (sizeOf fs) fs le_rfl).2) xs i σ σ' hp h

theorem writesFields_perm (fsa fs0 : Schema) (d : Data)
    (σ σ' : List (Path × Data)) (hp : σ.Perm σ')
    (h : WritesFields fsa fs0 d σ) : WritesFields fsa fs0 d σ' :=
  permInvWF_of fsa (fun cf hlt => permInvW_all (sizeOf cf) cf le_rfl)
    fs0 d σ σ' hp h

/-! ## C3: unfolding lemmas for the collector -/

theorem gafd_list_node (fs : Schema) (xs : List Data) :
    get_all_fk_data fs (Data.list xs) = gafd_list fs xs 0 [] := by
  rw [get_all_fk_data]

theorem gafd_none_node (fs : Schema) :
    get_all_fk_data fs Data.none = get_fk_data fs Data.none := by
  rw [get_all_fk_data]

theorem gafd_pk_node (fs : Schema) (n : Nat) :
    get_all_fk_data fs (Data.pk n) = get_fk_data fs (Data.pk n) := by
  rw [get_all_fk_data]

theorem gafd_inst_node (fs : Schema) (e : Entity) :
    get_all_fk_data fs (Data.inst e) = get_fk_data fs (Data.inst e) := by
  rw [get_all_fk_data]

theorem gafd_lazy_node (fs : Schema) (m : MClass) (v : Data) :
    get_all_fk_data fs (Data.lazy m v) = get_fk_data fs (Data.lazy m v) := by
  rw [get_all_fk_data]

theorem gafd_obj_node (fs : Schema) (kvs : List (String × Data)) :
    get_all_fk_data fs (Data.obj kvs) = get_fk_data fs (Data.obj kvs) := by
  rw [get_all_fk_data]

theorem gfd_falsy (fs : Schema) (d : Data) (h : d.truthy = false) :
    get_fk_data fs d = [] := by
  rw [get_fk_data, h]
  rfl

theorem gfd_truthy (fs : Schema) (d : Data) (h : d.truthy = true) :
    get_fk_data fs d =
      (match collect_fields fs d [] with
       | some fk => fk
       | Option.none => []) := by
  rw [get_fk_data, h]
  rfl

theorem gafd_none_nil (fs : Schema) : get_all_fk_data fs Data.none = [] := by
  rw [gafd_none_node, gfd_falsy]
  rfl

/-- Creating writes with nonempty paths on an absent key leave the
default in place. -/
theorem createRun_nonempty (σ : List (Path × Data)) (dflt : Data)
    (h : ∀ t ∈ σ, t.1 ≠ []) : createRun σ dflt = dflt := by
  induction σ with
  | nil => rfl
  | cons t rest ih =>
      obtain ⟨p, v⟩ := t
      cases p with
      | nil => exact absurd rfl (h ([], v) (List.mem_cons_self _ _))
      | cons s r =>
          rw [createRun]
          exact ih (fun t ht => h t (List.mem_cons_of_mem _ ht))

/-- The index loop collects nothing over elements that collect
nothing. -/
theorem gafd_list_all_nil (fs : Schema) (ys : List Data)
    (h : ∀ y ∈ ys, get_all_fk_data fs y = []) :
    ∀ i acc, gafd_list fs ys i acc = acc := by
  induction ys with
  | nil => intro i acc; rw [gafd_list]
  | cons y rest ih =>
      intro i acc
      rw [gafd_list, h y (List.mem_cons_self _ _)]
      exact ih (fun y hy => h y (List.mem_cons_of_mem _ hy)) (i + 1) acc

/-- The nested-collection element loop collects nothing over elements
that collect nothing. -/
theorem rel_l_elems_all_nil (cf : Schema) (name : String) (vs : List Data)
    (h : ∀ y ∈ vs, get_all_fk_data cf y = []) :
    ∀ i acc, rel_l_elems cf name vs i acc = acc := by
  induction vs with
  | nil => intro i acc; rw [rel_l_elems]
  | cons y rest ih =>
      intro i acc
      rw [rel_l_elems, h y (List.mem_cons_self _ _)]
      exact ih (fun y hy => h y (List.mem_cons_of_mem _ hy)) (i + 1) acc

theorem cleanList_mem (fs : Schema) (xs : List Data)
    (h : cleanList fs xs = true) : ∀ x ∈ xs, cleanNode fs x = true := by
  induction xs with
  | nil => intro x hx; cases hx
  | cons y rest ih =>
      rw [cleanList] at h
      simp only [Bool.and_eq_true] at h
      intro x hx
      cases hx with
      | head => exact h.1
      | tail _ hm => exact ih h.2 x hm

theorem writesList_get (fs : Schema) : ∀ (xs : List Data) (i : Nat)
    (σ : List (Path × Data)), WritesList fs xs i σ →
    ∀ j x, xs.get? j = some x → Writes fs x (projIdx (i + j) σ) := by
  intro xs
  induction xs with
  | nil => intro i σ h j x hx; simp at hx
  | cons y rest ih =>
      intro i σ h j x hx
      rw [WritesList.eq_def] at h
      cases j with
      | zero =>
          have hxy : y = x := by simpa using hx
          subst hxy
          exact h.1
      | succ j =>
          have hx' : rest.get? j = some x := by simpa using hx
          have := ih (i + 1) σ h.2 j x hx'
          have harith : i + 1 + j = i + (j + 1) := by omega
          rw [harith] at this
          exact this

theorem writesList_of_get (fs : Schema) : ∀ (xs : List Data) (i : Nat)
    (σ : List (Path × Data)),
    (∀ j x, xs.get? j = some x → Writes fs x (projIdx (i + j) σ)) →
    WritesList fs xs i σ := by
  intro xs
  induction xs with
  | nil => intro i σ h; rw [WritesList.eq_def]; trivial
  | cons y rest ih =>
      intro i σ h
      rw [WritesList.eq_def]
      refine ⟨by simpa using h 0 y (by simp), ?_⟩
      refine ih (i + 1) σ ?_
      intro j x hx
      have := h (j + 1) x (by simpa using hx)
      have harith : i + (j + 1) = i + 1 + j := by omega
      rw [harith] at this
      exact this

/-! ## C3: the ideal (schema-ordered) form of the collected writes -/

/-- The flattened writes contributed by the elements of a list node,
each prefixed with its index. -/
def listWrites (fs : Schema) : List Data → Nat → List (Path × Data)
  | [], _ => []
  | x :: rest, i =>
      (flattenFk (get_all_fk_data fs x)).map
        (fun t => (Seg.idx i :: t.1, t.2)) ++ listWrites fs rest (i + 1)

/-- The flattened writes contributed by one field of a dict node. -/
def headWrites (f : String) (ty : RelTy) (d : Data) : List (Path × Data) :=
  match ty with
  | .fk m =>
      let value := fkExtractedValue d f
      if value.truthy then
        if value.isLazy then []
        else [([Seg.field f],
          Data.lazy m (pointed_getter value [Seg.field pk_attname] value))]
      else []
  | .qs m =>
      match pointed_getter d [Seg.field f] (Data.list []) with
      | .list vs =>
          if vs.any Data.isLazy then []
          else [([Seg.field f],
            Data.lazy m (Data.list ((vs.filter Data.truthy).map
              (fun i => pointed_getter i [Seg.field pk_attname] i))))]
      | _ => []
  | .rel cf =>
      (flattenFk (get_all_fk_data cf (pointed_getter d [Seg.field f] Data.none))).map
        (fun t => (Seg.field f :: t.1, t.2))
  | .rel_l cf =>
      match pointed_getter d [Seg.field f] (Data.list []) with
      | .list vs => (listWrites cf vs 0).map (fun t => (Seg.field f :: t.1, t.2))
      | _ => []

/-- The flattened writes of a dict node, in schema order. -/
def fieldsWrites : Schema → Data → List (Path × Data)
  | [], _ => []
  | (f, ty) :: rest, d => headWrites f ty d ++ fieldsWrites rest d

theorem flatten_gafd_list_perm (fs : Schema) : ∀ (xs : List Data)
    (i : Nat) (acc : FkData),
    (flattenFk (gafd_list fs xs i acc)).Perm
      (flattenFk acc ++ listWrites fs xs i) := by
  intro xs
  induction xs with
  | nil =>
      intro i acc
      rw [gafd_list, listWrites]
      simp
  | cons x rest ih =>
      intro i acc
      rw [gafd_list, listWrites]
      refine (ih (i + 1) _).trans ?_
      refine ((flattenFk_mergeAll_perm _ acc).append_right _).trans ?_
      rw [flattenFk_withPre]
      simp only [List.singleton_append, List.append_assoc]
      exact List.Perm.refl _

theorem flatten_rel_l_elems_perm (cf : Schema) (name : String) :
    ∀ (vs : List Data) (i : Nat) (acc : FkData),
    (flattenFk (rel_l_elems cf name vs i acc)).Perm
      (flattenFk acc ++
        (listWrites cf vs i).map (fun t => (Seg.field name :: t.1, t.2))) := by
  intro vs
  induction vs with
  | nil =>
      intro i acc
      rw [rel_l_elems, listWrites]
      simp
  | cons x rest ih =>
      intro i acc
      rw [rel_l_elems, listWrites]
      refine (ih (i + 1) _).trans ?_
      refine ((flattenFk_mergeAll_perm _ acc).append_right _).trans ?_
      rw [flattenFk_withPre]
      simp only [List.map_append, List.map_map, Function.comp, List.append_assoc]
      have hpre : (fun t : Path × Data => ([Seg.field name, Seg.idx i] ++ t.1, t.2)) =
          (fun t : Path × Data => (Seg.field name :: Seg.idx i :: t.1, t.2)) := by
        funext t
        simp
      rw [hpre]
      exact List.Perm.refl _

theorem projIdx_listWrites_out (fs : Schema) : ∀ (xs : List Data)
    (i j : Nat), j < i → projIdx j (listWrites fs xs i) = [] := by
  intro xs
  induction xs with
  | nil => intro i j h; rw [listWrites]; rfl
  | cons x rest ih =>
      intro i j h
      rw [listWrites, projIdx_append, projIdx_pre_ne j i (by omega),
        ih (i + 1) j (by omega)]
      rfl

theorem projIdx_listWrites (fs : Schema) : ∀ (xs : List Data)
    (i j : Nat) (x : Data), xs.get? j = some x →
    projIdx (i + j) (listWrites fs xs i) =
      flattenFk (get_all_fk_data fs x) := by
  intro xs
  induction xs with
  | nil => intro i j x hx; simp at hx
  | cons y rest ih =>
      intro i j x hx
      rw [listWrites, projIdx_append]
      cases j with
      | zero =>
          have hxy : y = x := by simpa using hx
          subst hxy
          rw [Nat.add_zero, projIdx_pre_self,
            projIdx_listWrites_out fs rest (i + 1) i (by omega), List.append_nil]
      | succ j =>
          have hx' : rest.get? j = some x := by simpa using hx
          rw [projIdx_pre_ne (i + (j + 1)) i (by omega)]
          have := ih (i + 1) j x hx'
          have harith : i + 1 + j = i + (j + 1) := by omega
          rw [harith] at this
          rw [this, List.nil_append]

theorem listWrites_head (fs : Schema) : ∀ (xs : List Data) (i : Nat)
    (t : Path × Data), t ∈ listWrites fs xs i →
    ∃ k r, t.1 = Seg.idx k :: r := by
  intro xs
  induction xs with
  | nil => intro i t ht; rw [listWrites] at ht; cases ht
  | cons x rest ih =>
      intro i t ht
      rw [listWrites] at ht
      rcases List.mem_append.mp ht with hm | hm
      · obtain ⟨u, _, hu⟩ := List.mem_map.mp hm
        exact ⟨i, u.1, by rw [← hu]⟩
      · exact ih (i + 1) t hm

theorem headWrites_head (f : String) (ty : RelTy) (d : Data) :
    ∀ t ∈ headWrites f ty d, ∃ r, t.1 = Seg.field f :: r := by
  intro t ht
  cases ty with
  | fk m =>
      rw [headWrites] at ht
      by_cases h1 : (fkExtractedValue d f).truthy = true
      · by_cases h2 : (fkExtractedValue d f).isLazy = true
        · simp only [h1, h2, if_true] at ht
          cases ht
        · simp only [h1, h2, if_true, if_false] at ht
          have he := List.mem_singleton.mp ht
          exact ⟨[], by rw [he]⟩
      · simp only [h1, if_false] at ht
        cases ht
  | qs m =>
      rw [headWrites] at ht
      cases hv : pointed_getter d [Seg.field f] (Data.list []) with
      | list vs =>
          simp only [hv] at ht
          by_cases h2 : vs.any Data.isLazy = true
          · simp only [h2, if_true] at ht
            cases ht
          · simp only [h2, if_false] at ht
            have he := List.mem_singleton.mp ht
            exact ⟨[], by rw [he]⟩
      | none => simp only [hv] at ht; cases ht
      | pk n => simp only [hv] at ht; cases ht
      | inst e => simp only [hv] at ht; cases ht
      | lazy m2 v2 => simp only [hv] at ht; cases ht
      | obj kvs => simp only [hv] at ht; cases ht
  | rel cf =>
      rw [headWrites] at ht
      obtain ⟨u, _, hu⟩ := List.mem_map.mp ht
      exact ⟨u.1, by rw [← hu]⟩
  | rel_l cf =>
      rw [headWrites] at ht
      cases hv : pointed_getter d [Seg.field f] (Data.list []) with
      | list vs =>
          simp only [hv] at ht
          obtain ⟨u, _, hu⟩ := List.mem_map.mp ht
          exact ⟨u.1, by rw [← hu]⟩
      | none => simp only [hv] at ht; cases ht
      | pk n => simp only [hv] at ht; cases ht
      | inst e => simp only [hv] at ht; cases ht
      | lazy m2 v2 => simp only [hv] at ht; cases ht
      | obj kvs => simp only [hv] at ht; cases ht

theorem fieldsWrites_paths (d : Data) : ∀ (fs : Schema)
    (t : Path × Data), t ∈ fieldsWrites fs d → t.1 ≠ [] := by
  intro fs
  induction fs with
  | nil => intro t ht; rw [fieldsWrites] at ht; cases ht
  | cons p rest ih =>
      obtain ⟨f, ty⟩ := p
      intro t ht
      rw [fieldsWrites] at ht
      rcases List.mem_append.mp ht with hm | hm
      · obtain ⟨r, hr⟩ := headWrites_head f ty d t hm
        rw [hr]
        simp
      · exact ih t hm

theorem projField_nil_of (f : String) (σ : List (Path × Data))
    (h : ∀ t ∈ σ, ∀ r, t.1 ≠ Seg.field f :: r) : projField f σ = [] := by
  rw [projField, List.filterMap_eq_nil_iff]
  intro t ht
  cases hp : t.1 with
  | nil => rfl
  | cons seg r =>
      cases seg with
      | idx i => rfl
      | field g =>
          have hg : (g == f) = false := by
            refine beq_eq_false_iff_ne.mpr ?_
            intro he
            subst he
            exact h t ht r hp
          simp [hp, hg]

theorem projField_fieldsWrites_nil (d : Data) (f : String) : ∀ (fs : Schema),
    (∀ g ty, (g, ty) ∈ fs → g ≠ f) →
    projField f (fieldsWrites fs d) = [] := by
  intro fs
  induction fs with
  | nil => intro h; rfl
  | cons p rest ih =>
      obtain ⟨g, ty⟩ := p
      intro h
      have h1 : projField f (headWrites g ty d) = [] := by
        refine projField_nil_of f _ ?_
        intro t ht r hr
        obtain ⟨r2, hr2⟩ := headWrites_head g ty d t ht
        rw [hr2] at hr
        injection hr with ha hb
        injection ha with hg
        exact h g ty (List.mem_cons_self _ _) hg
      rw [fieldsWrites, projField_append, h1,
        ih (fun g2 ty2 hm => h g2 ty2 (List.mem_cons_of_mem _ hm))]
      rfl

theorem fieldsWrites_proj (d : Data) : ∀ (fs : Schema), schemaOk fs = true →
    ∀ f ty, (f, ty) ∈ fs →
    projField f (fieldsWrites fs d) = projField f (headWrites f ty d) := by
  intro fs
  induction fs with
  | nil => intro hok f ty hm; cases hm
  | cons p rest ih =>
      obtain ⟨g, ty2⟩ := p
      intro hok f ty hm
      rw [schemaOk] at hok
      simp only [Bool.and_eq_true] at hok
      have hnc : ((rest.map Prod.fst).contains g) = false := by
        simpa using hok.1.1
      cases hm with
      | head =>
          rw [fieldsWrites, projField_append,
            projField_fieldsWrites_nil d _ rest ?_, List.append_nil]
          intro g2 ty3 hm2 he
          subst he
          have hc : (rest.map Prod.fst).contains g2 = true :=
            List.elem_eq_true_of_mem (List.mem_map_of_mem Prod.fst hm2)
          rw [hc] at hnc
          cases hnc
      | tail _ hm2 =>
          have hgf : g ≠ f := by
            intro he
            subst he
            have hc : (rest.map Prod.fst).contains g = true :=
              List.elem_eq_true_of_mem (List.mem_map_of_mem Prod.fst hm2)
            rw [hc] at hnc
            cases hnc
          have h1 : projField f (headWrites g ty2 d) = [] := by
            refine projField_nil_of f _ ?_
            intro t ht r hr
            obtain ⟨r2, hr2⟩ := headWrites_head g ty2 d t ht
            rw [hr2] at hr
            injection hr with ha hb
            injection ha with hg2
            exact hgf hg2
          rw [fieldsWrites, projField_append, h1, List.nil_append]
          exact ih hok.2 f ty hm2

theorem collect_fields_some_each (d : Data) : ∀ (fsa : Schema)
    (acc r : FkData), collect_fields fsa d acc = some r →
    ∀ f ty, (f, ty) ∈ fsa → collect_field f ty d ≠ Option.none := by
  intro fsa
  induction fsa with
  | nil => intro acc r h f ty hm; cases hm
  | cons p rest ih =>
      obtain ⟨g, ty2⟩ := p
      intro acc r h f ty hm
      rw [collect_fields] at h
      cases hcf : collect_field g ty2 d with
      | none => rw [hcf] at h; cases h
      | some contrib =>
          rw [hcf] at h
          cases hm with
          | head => rw [hcf]; intro he; cases he
          | tail _ hm2 => exact ih _ r h f ty hm2

theorem collect_field_flatten_perm (f : String) (ty : RelTy) (d : Data)
    (contrib : FkData) (h : collect_field f ty d = some contrib) :
    (flattenFk contrib).Perm (headWrites f ty d) := by
  cases ty with
  | fk m =>
      rw [headWrites]
      simp only [collect_field] at h
      by_cases h1 : (fkExtractedValue d f).truthy = true
      · by_cases h2 : (fkExtractedValue d f).isLazy = true
        · rw [if_pos h1, if_pos h2] at h
          cases h
        · rw [if_pos h1, if_neg h2] at h
          injection h with h3
          subst h3
          rw [if_pos h1, if_neg h2]
          simp [flattenFk]
      · rw [if_neg h1] at h
        injection h with h3
        subst h3
        rw [if_neg h1]
        simp [flattenFk]
  | qs m =>
      rw [headWrites]
      simp only [collect_field] at h
      cases hv : pointed_getter d [Seg.field f] (Data.list []) with
      | list vs =>
          rw [hv] at h
          simp only at h
          by_cases h2 : vs.any Data.isLazy = true
          · rw [if_pos h2] at h
            cases h
          · rw [if_neg h2] at h
            injection h with h3
            subst h3
            simp only [hv, if_neg h2]
            simp [flattenFk]
      | none =>
          rw [hv] at h
          injection h with h3
          subst h3
          exact List.Perm.refl _
      | pk n =>
          rw [hv] at h
          injection h with h3
          subst h3
          exact List.Perm.refl _
      | inst e =>
          rw [hv] at h
          injection h with h3
          subst h3
          exact List.Perm.refl _
      | lazy m2 v2 =>
          rw [hv] at h
          injection h with h3
          subst h3
          exact List.Perm.refl _
      | obj kvs =>
          rw [hv] at h
          injection h with h3
          subst h3
          exact List.Perm.refl _
  | rel cf =>
      rw [headWrites]
      simp only [collect_field] at h
      injection h with h3
      subst h3
      rw [flattenFk_withPre]
      simp only [List.singleton_append]
      exact List.Perm.refl _
  | rel_l cf =>
      rw [headWrites]
      simp only [collect_field] at h
      cases hv : pointed_getter d [Seg.field f] (Data.list []) with
      | list vs =>
          rw [hv] at h
          injection h with h3
          subst h3
          have hp := flatten_rel_l_elems_perm cf f vs 0 []
          simpa using hp
      | none =>
          rw [hv] at h
          injection h with h3
          subst h3
          exact List.Perm.refl _
      | pk n =>
          rw [hv] at h
          injection h with h3
          subst h3
          exact List.Perm.refl _
      | inst e =>
          rw [hv] at h
          injection h with h3
          subst h3
          exact List.Perm.refl _
      | lazy m2 v2 =>
          rw [hv] at h
          injection h with h3
          subst h3
          exact List.Perm.refl _
      | obj kvs =>
          rw [hv] at h
          injection h with h3
          subst h3
          exact List.Perm.refl _

theorem flatten_collect_fields_perm (d : Data) : ∀ (fsa : Schema)
    (acc r : FkData), collect_fields fsa d acc = some r →
    (flattenFk r).Perm (flattenFk acc ++ fieldsWrites fsa d) := by
  intro fsa
  induction fsa with
  | nil =>
      intro acc r h
      rw [collect_fields] at h
      injection h with h3
      subst h3
      rw [fieldsWrites]
      simp
  | cons p rest ih =>
      obtain ⟨f, ty⟩ := p
      intro acc r h
      rw [collect_fields] at h
      cases hcf : collect_field f ty d with
      | none => rw [hcf] at h; cases h
      | some contrib =>
          rw [hcf] at h
          refine (ih _ r h).trans ?_
          rw [fieldsWrites]
          refine ((flattenFk_mergeAll_perm contrib acc).append_right _).trans ?_
          have hhead := collect_field_flatten_perm f ty d contrib hcf
          refine (((hhead.append_left (flattenFk acc)).append_right
            (fieldsWrites rest d)).trans ?_)
          simp only [List.append_assoc]
          exact List.Perm.refl _

/-- Every field of a well-formed schema has a well-formed type. -/
theorem schemaOk_mem_tyOk : ∀ (fs : Schema), schemaOk fs = true →
    ∀ f ty, (f, ty) ∈ fs → tyOk ty = true := by
  intro fs
  induction fs with
  | nil => intro hok f ty hm; cases hm
  | cons p rest ih =>
      obtain ⟨g, ty2⟩ := p
      intro hok f ty hm
      rw [schemaOk] at hok
      simp only [Bool.and_eq_true] at hok
      cases hm with
      | head => exact hok.1.2
      | tail _ hm2 => exact ih hok.2 f ty hm2

theorem sizeOf_ty_mem : ∀ (fs : Schema) (f : String) (ty : RelTy),
    (f, ty) ∈ fs → sizeOf ty < sizeOf fs := by
  intro fs
  induction fs with
  | nil => intro f ty hm; cases hm
  | cons p rest ih =>
      intro f ty hm
      cases hm with
      | head => simp <;> omega
      | tail _ hm2 =>
          have h1 := ih f ty hm2
          have h2 : sizeOf rest < sizeOf (p :: rest) := by simp <;> omega
          omega

/-- The schema-indexed statement of the W theorem. -/
def WFlat (fs : Schema) : Prop :=
  ∀ d, Writes fs d (flattenFk (get_all_fk_data fs d))

theorem headCond_fk (f : String) (m : MClass) (d : Data)
    (σ : List (Path × Data))
    (hproj : projField f σ = projField f (headWrites f (RelTy.fk m) d))
    (hnn : collect_field f (RelTy.fk m) d ≠ Option.none) :
    if (fkExtractedValue d f).truthy then
      ∃ mv vv, projField f σ = [([], Data.lazy mv vv)]
    else projField f σ = [] := by
  by_cases h1 : (fkExtractedValue d f).truthy = true
  · rw [if_pos h1]
    have h2 : (fkExtractedValue d f).isLazy = false := by
      cases h2 : (fkExtractedValue d f).isLazy with
      | false => rfl
      | true => exact absurd (collect_field_fk_guard f m d h2) hnn
    rw [headWrites] at hproj
    rw [if_pos h1, if_neg (by rw [h2]; intro hx; cases hx : hx)] at hproj
    refine ⟨m, pointed_getter (fkExtractedValue d f) [Seg.field pk_attname]
      (fkExtractedValue d f), ?_⟩
    rw [hproj]
    simp [projField]
  · rw [if_neg h1]
    rw [headWrites] at hproj
    rw [if_neg h1] at hproj
    rw [hproj]
    rfl

theorem headCond_qs (f : String) (m : MClass) (d : Data)
    (σ : List (Path × Data))
    (hproj : projField f σ = projField f (headWrites f (RelTy.qs m) d))
    (hnn : collect_field f (RelTy.qs m) d ≠ Option.none) :
    match pointed_getter d [Seg.field f] (Data.list []) with
    | .list _ => ∃ mv vv, projField f σ = [([], Data.lazy mv vv)]
    | _ => projField f σ = [] := by
  rw [headWrites] at hproj
  cases hv : pointed_getter d [Seg.field f] (Data.list []) with
  | list vs =>
      rw [hv] at hproj
      simp only at hproj
      have h2 : vs.any Data.isLazy = false := by
        cases h2 : vs.any Data.isLazy with
        | false => rfl
        | true => exact absurd (collect_field_qs_guard f m d vs hv h2) hnn
      rw [if_neg (by rw [h2]; intro hx; cases hx : hx)] at hproj
      refine ⟨m, Data.list ((vs.filter Data.truthy).map
        (fun i => pointed_getter i [Seg.field pk_attname] i)), ?_⟩
      rw [hproj]
      simp [projField]
  | none => rw [hv] at hproj; simp only at hproj; rw [hproj]; rfl
  | pk n => rw [hv] at hproj; simp only at hproj; rw [hproj]; rfl
  | inst e => rw [hv] at hproj; simp only at hproj; rw [hproj]; rfl
  | lazy m2 v2 => rw [hv] at hproj; simp only at hproj; rw [hproj]; rfl
  | obj kvs => rw [hv] at hproj; simp only at hproj; rw [hproj]; rfl

theorem headCond_rel (f : String) (cf : Schema) (d : Data)
    (σ : List (Path × Data))
    (hproj : projField f σ = projField f (headWrites f (RelTy.rel cf) d))
    (hcok : schemaOk cf = true) (hW : WFlat cf) :
    Writes cf (pointed_getter d [Seg.field f] Data.none) (projField f σ) := by
  rw [headWrites, projField_pre_self] at hproj
  rw [hproj]
  exact hW _

theorem headCond_rel_l (f : String) (cf : Schema) (d : Data)
    (σ : List (Path × Data))
    (hproj : projField f σ = projField f (headWrites f (RelTy.rel_l cf) d))
    (hcok : schemaOk cf = true) (hW : WFlat cf) :
    match pointed_getter d [Seg.field f] (Data.list []) with
    | .list vs =>
        WritesList cf vs 0 (projField f σ) ∧
        (∀ t ∈ projField f σ, t.1 ≠ [])
    | _ => projField f σ = [] := by
  rw [headWrites] at hproj
  cases hv : pointed_getter d [Seg.field f] (Data.list []) with
  | list vs =>
      rw [hv] at hproj
      simp only at hproj
      rw [projField_pre_self] at hproj
      rw [hproj]
      constructor
      · refine writesList_of_get cf vs 0 _ ?_
        intro j x hx
        rw [projIdx_listWrites cf vs 0 j x hx]
        exact hW x
      · intro t ht
        obtain ⟨k, r, hr⟩ := listWrites_head cf vs 0 t ht
        rw [hr]
        simp
  | none => rw [hv] at hproj; simp only at hproj; rw [hproj]; rfl
  | pk n => rw [hv] at hproj; simp only at hproj; rw [hproj]; rfl
  | inst e => rw [hv] at hproj; simp only at hproj; rw [hproj]; rfl
  | lazy m2 v2 => rw [hv] at hproj; simp only at hproj; rw [hproj]; rfl
  | obj kvs => rw [hv] at hproj; simp only at hproj; rw [hproj]; rfl

theorem writesFields_of_proj (fs0 : Schema) (d : Data)
    (σ : List (Path × Data)) : ∀ (fsa : Schema),
    (∀ f ty, (f, ty) ∈ fsa →
      (match ty with
        | .fk _ =>
            if (fkExtractedValue d f).truthy then
              ∃ mv vv, projField f σ = [([], Data.lazy mv vv)]
            else projField f σ = []
        | .qs _ =>
            match pointed_getter d [Seg.field f] (Data.list []) with
            | .list _ => ∃ mv vv, projField f σ = [([], Data.lazy mv vv)]
            | _ => projField f σ = []
        | .rel cf =>
            Writes cf (pointed_getter d [Seg.field f] Data.none)
              (projField f σ)
        | .rel_l cf =>
            match pointed_getter d [Seg.field f] (Data.list []) with
            | .list vs =>
                WritesList cf vs 0 (projField f σ) ∧
                (∀ t ∈ projField f σ, t.1 ≠ [])
            | _ => projField f σ = [])) →
    WritesFields fsa fs0 d σ := by
  intro fsa
  induction fsa with
  | nil => intro h; rw [WritesFields.eq_def]; trivial
  | cons p rest ih =>
      obtain ⟨f, ty⟩ := p
      intro h
      rw [WritesFields.eq_def]
      exact ⟨h f ty (List.mem_cons_self _ _),
        ih (fun f2 ty2 hm => h f2 ty2 (List.mem_cons_of_mem _ hm))⟩

/-- On a node whose field loop completed, the flat write list of the
collected map satisfies the per-field invariant, and every written path
is nonempty. -/
theorem writes_node_of_collect (fs : Schema) (d : Data) (r : FkData)
    (hok : schemaOk fs = true)
    (hIH : ∀ cf, sizeOf cf < sizeOf fs → schemaOk cf = true → WFlat cf)
    (hc : collect_fields fs d [] = some r) :
    WritesFields fs fs d (flattenFk r) ∧ (∀ t ∈ flattenFk r, t.1 ≠ []) := by
  have hperm : (flattenFk r).Perm (fieldsWrites fs d) := by
    have := flatten_collect_fields_perm d fs [] r hc
    simpa using this
  constructor
  · refine writesFields_perm fs fs d (fieldsWrites fs d) (flattenFk r)
      hperm.symm ?_
    refine writesFields_of_proj fs d (fieldsWrites fs d) fs ?_
    intro f ty hm
    have hproj := fieldsWrites_proj d fs hok f ty hm
    have hnn := collect_fields_some_each d fs [] r hc f ty hm
    have htyok := schemaOk_mem_tyOk fs hok f ty hm
    have htysz := sizeOf_ty_mem fs f ty hm
    cases ty with
    | fk m => exact headCond_fk f m d _ hproj hnn
    | qs m => exact headCond_qs f m d _ hproj hnn
    | rel cf =>
        have hsz : sizeOf cf < sizeOf fs := by
          have : sizeOf cf < sizeOf (RelTy.rel cf) := by simp <;> omega
          omega
        exact headCond_rel f cf d _ hproj (by simpa [tyOk] using htyok)
          (hIH cf hsz (by simpa [tyOk] using htyok))
    | rel_l cf =>
        have hsz : sizeOf cf < sizeOf fs := by
          have : sizeOf cf < sizeOf (RelTy.rel_l cf) := by simp <;> omega
          omega
        exact headCond_rel_l f cf d _ hproj (by simpa [tyOk] using htyok)
          (hIH cf hsz (by simpa [tyOk] using htyok))
  · intro t ht
    exact fieldsWrites_paths d fs t (hperm.mem_iff.mp ht)

/-- Inner induction of the W theorem, on a bound on the data size. -/
theorem wflat_core : ∀ (b : Nat) (fs : Schema), schemaOk fs = true →
    (∀ cf, sizeOf cf < sizeOf fs → schemaOk cf = true → WFlat cf) →
    ∀ d, sizeOf d ≤ b → Writes fs d (flattenFk (get_all_fk_data fs d)) := by
  intro b
  induction b with
  | zero =>
      intro fs _ _ d hb
      exact absurd hb (by have := sizeOf_data_pos d; omega)
  | succ b ihb =>
      intro fs hok hIH d hb
      cases d with
      | list xs =>
          rw [gafd_list_node]
          have hperm : (flattenFk (gafd_list fs xs 0 [])).Perm
              (listWrites fs xs 0) := by
            have := flatten_gafd_list_perm fs xs 0 []
            simpa using this
          refine writes_perm fs (Data.list xs) (listWrites fs xs 0) _
            hperm.symm ?_
          rw [Writes.eq_def]
          refine ⟨?_, ?_⟩
          · intro t ht
            obtain ⟨k, r, hr⟩ := listWrites_head fs xs 0 t ht
            rw [hr]
            simp
          · refine writesList_of_get fs xs 0 _ ?_
            intro j x hx
            rw [projIdx_listWrites fs xs 0 j x hx]
            have hmem : x ∈ xs := by
              obtain ⟨hlt, hg⟩ := List.get?_eq_some.mp hx
              exact hg ▸ List.get_mem xs j hlt
            have hsx : sizeOf x ≤ b := by
              have h1 := List.sizeOf_lt_of_mem hmem
              have h2 : sizeOf (Data.list xs) = 1 + sizeOf xs := by simp
              omega
            exact ihb fs hok hIH x hsx
      | none =>
          rw [gafd_none_nil]
          rw [Writes.eq_def]
          exact ⟨by simp [flattenFk], rfl⟩
      | pk n =>
          rw [gafd_pk_node]
          by_cases ht : (Data.pk n).truthy = true
          · rw [gfd_truthy fs _ ht]
            cases hc : collect_fields fs (Data.pk n) [] with
            | none =>
                rw [Writes.eq_def]
                refine ⟨?_, ?_⟩
                · simp [flattenFk, hc]
                · simp only [if_pos ht, hc]
                  rfl
            | some r =>
                have hw := writes_node_of_collect fs (Data.pk n) r hok hIH hc
                rw [Writes.eq_def]
                refine ⟨?_, ?_⟩
                · simp only [hc]
                  exact hw.2
                · simp only [if_pos ht, hc]
                  exact hw.1
          · rw [gfd_falsy fs _ (by simpa using ht)]
            rw [Writes.eq_def]
            refine ⟨by simp [flattenFk], ?_⟩
            simp only [if_neg ht]
            rfl
      | inst e =>
          rw [gafd_inst_node, gfd_truthy fs _ (by rfl)]
          cases hc : collect_fields fs (Data.inst e) [] with
          | none =>
              rw [Writes.eq_def]
              refine ⟨?_, ?_⟩
              · simp [flattenFk, hc]
              · simp only [hc]
                rfl
          | some r =>
              have hw := writes_node_of_collect fs (Data.inst e) r hok hIH hc
              rw [Writes.eq_def]
              refine ⟨?_, ?_⟩
              · simp only [hc]
                exact hw.2
              · simp only [hc]
                exact hw.1
      | lazy m v =>
          rw [gafd_lazy_node, gfd_truthy fs _ (by rfl)]
          cases hc : collect_fields fs (Data.lazy m v) [] with
          | none =>
              rw [Writes.eq_def]
              refine ⟨?_, ?_⟩
              · simp [flattenFk, hc]
              · simp only [hc]
                rfl
          | some r =>
              have hw := writes_node_of_collect fs (Data.lazy m v) r hok hIH hc
              rw [Writes.eq_def]
              refine ⟨?_, ?_⟩
              · simp only [hc]
                exact hw.2
              · simp only [hc]
                exact hw.1
      | obj kvs =>
          rw [gafd_obj_node]
          by_cases ht : (Data.obj kvs).truthy = true
          · rw [gfd_truthy fs _ ht]
            cases hc : collect_fields fs (Data.obj kvs) [] with
            | none =>
                rw [Writes.eq_def]
                refine ⟨?_, ?_⟩
                · simp [flattenFk, hc]
                · simp only [if_pos ht, hc]
                  rfl
            | some r =>
                have hw := writes_node_of_collect fs (Data.obj kvs) r hok hIH hc
                rw [Writes.eq_def]
                refine ⟨?_, ?_⟩
                · simp only [hc]
                  exact hw.2
                · simp only [if_pos ht, hc]
                  exact hw.1
          · rw [gfd_falsy fs _ (by simpa using ht)]
            rw [Writes.eq_def]
            refine ⟨by simp [flattenFk], ?_⟩
            simp only [if_neg ht]
            rfl

/-- Outer induction of the W theorem, on a bound on the schema size. -/
theorem wflat_all : ∀ (a : Nat) (fs : Schema), sizeOf fs ≤ a →
    schemaOk fs = true → WFlat fs := by
  intro a
  induction a with
  | zero =>
      intro fs hle
      exact absurd hle (by have := sizeOf_schema_pos fs; omega)
  | succ a iha =>
      intro fs hle hok d
      exact wflat_core (sizeOf d) fs hok
        (fun cf hlt hcok => iha cf (by omega) hcok) d le_rfl

/-- W: the write list a collect pass produces satisfies the `Writes`
invariant of the node it was collected from. -/
theorem writes_flatten (fs : Schema) (d : Data) (hok : schemaOk fs = true) :
    Writes fs d (flattenFk (get_all_fk_data fs d)) :=
  wflat_all (sizeOf fs) fs le_rfl hok d

/-! ## C3: a clean node collects nothing after its writes are applied -/

theorem writes_none_eq (cf : Schema) (σf : List (Path × Data))
    (h : Writes cf Data.none σf) : σf = [] := by
  rw [Writes.eq_def] at h
  exact h.2

theorem collect_field_fk_falsy (f : String) (m : MClass) (d : Data)
    (h : (fkExtractedValue d f).truthy = false) :
    collect_field f (RelTy.fk m) d = some [] := by
  simp [collect_field, h]

/-- The statement of the C theorem, indexed by the schema. -/
def CInv (fs : Schema) : Prop :=
  ∀ d σ, Writes fs d σ → cleanNode fs d = true →
    get_all_fk_data fs (applyAll σ d) = []

theorem collect_fields_after (kvs : List (String × Data))
    (σ : List (Path × Data)) (hne : ∀ t ∈ σ, t.1 ≠ []) (fs0 : Schema) :
    ∀ (fsa : Schema),
    (∀ cf, sizeOf cf < sizeOf fsa → CInv cf) →
    WritesFields fsa fs0 (Data.obj kvs) σ →
    cleanFields fsa kvs = true →
    ∀ acc, collect_fields fsa (applyAll σ (Data.obj kvs)) acc = Option.none ∨
      collect_fields fsa (applyAll σ (Data.obj kvs)) acc = some acc := by
  intro fsa
  induction fsa with
  | nil =>
      intro _ _ _ acc
      right
      rw [collect_fields]
  | cons p rest ih =>
      obtain ⟨f, ty⟩ := p
      intro hIH hW hcl acc
      rw [WritesFields.eq_def] at hW
      obtain ⟨h1, h2⟩ := hW
      rw [cleanFields.eq_def] at hcl
      simp only [Bool.and_eq_true] at hcl
      have hrs : sizeOf rest < sizeOf ((f, ty) :: rest) := by simp <;> omega
      have hrest := ih (fun cf h => hIH cf (by omega)) h2 hcl.2
      have hhead : collect_field f ty (applyAll σ (Data.obj kvs)) =
          Option.none ∨
          collect_field f ty (applyAll σ (Data.obj kvs)) = some [] := by
        cases ty with
        | fk m =>
            have h1' : if (fkExtractedValue (Data.obj kvs) f).truthy then
                ∃ mv vv, projField f σ = [([], Data.lazy mv vv)]
              else projField f σ = [] := h1
            have hget := applyAll_obj_field σ kvs f Data.none hne
            by_cases htv : (fkExtractedValue (Data.obj kvs) f).truthy = true
            · rw [if_pos htv] at h1'
              obtain ⟨mv, vv, hsing⟩ := h1'
              have hval : pointed_getter (applyAll σ (Data.obj kvs))
                  [Seg.field f] Data.none = Data.lazy mv vv := by
                rw [hget, hsing]
                cases hfind : assocFind kvs f with
                | some x => rfl
                | none => rfl
              have hex : fkExtractedValue (applyAll σ (Data.obj kvs)) f =
                  Data.lazy mv vv := by
                rw [fkExtractedValue, hval]
              left
              exact collect_field_fk_guard f m _ (by rw [hex]; rfl)
            · rw [if_neg htv] at h1'
              have hval : pointed_getter (applyAll σ (Data.obj kvs))
                  [Seg.field f] Data.none =
                  pointed_getter (Data.obj kvs) [Seg.field f] Data.none := by
                rw [hget, h1', pget_obj_single]
                cases hfind : assocFind kvs f with
                | some x => rfl
                | none => rfl
              have hex : fkExtractedValue (applyAll σ (Data.obj kvs)) f =
                  fkExtractedValue (Data.obj kvs) f := by
                rw [fkExtractedValue, fkExtractedValue, hval]
              right
              refine collect_field_fk_falsy f m _ ?_
              rw [hex]
              simpa using htv
        | qs m =>
            have hcl1 : (assocFind kvs f).isSome = true := hcl.1
            obtain ⟨x, hfind⟩ := Option.isSome_iff_exists.mp hcl1
            have hvx : pointed_getter (Data.obj kvs) [Seg.field f]
                (Data.list []) = x := by
              rw [pget_obj_single, hfind]
            have hget := applyAll_obj_field σ kvs f (Data.list []) hne
            cases x with
            | list vs =>
                have h1' : ∃ mv vv, projField f σ = [([], Data.lazy mv vv)] := by
                  have h1t : match pointed_getter (Data.obj kvs) [Seg.field f]
                      (Data.list []) with
                    | .list _ => ∃ mv vv, projField f σ = [([], Data.lazy mv vv)]
                    | _ => projField f σ = [] := h1
                  rw [hvx] at h1t
                  exact h1t
                obtain ⟨mv, vv, hsing⟩ := h1'
                have hval : pointed_getter (applyAll σ (Data.obj kvs))
                    [Seg.field f] (Data.list []) = Data.lazy mv vv := by
                  rw [hget, hsing]
                  simp only [hfind]
                  rfl
                right
                simp [collect_field, hval]
            | none =>
                have h1' : projField f σ = [] := by
                  have h1t : match pointed_getter (Data.obj kvs) [Seg.field f]
                      (Data.list []) with
                    | .list _ => ∃ mv vv, projField f σ = [([], Data.lazy mv vv)]
                    | _ => projField f σ = [] := h1
                  rw [hvx] at h1t
                  exact h1t
                have hval : pointed_getter (applyAll σ (Data.obj kvs))
                    [Seg.field f] (Data.list []) = Data.none := by
                  rw [hget, h1']
                  simp only [hfind]
                  rfl
                right
                simp [collect_field, hval]
            | pk n =>
                have h1' : projField f σ = [] := by
                  have h1t : match pointed_getter (Data.obj kvs) [Seg.field f]
                      (Data.list []) with
                    | .list _ => ∃ mv vv, projField f σ = [([], Data.lazy mv vv)]
                    | _ => projField f σ = [] := h1
                  rw [hvx] at h1t
                  exact h1t
                have hval : pointed_getter (applyAll σ (Data.obj kvs))
                    [Seg.field f] (Data.list []) = Data.pk n := by
                  rw [hget, h1']
                  simp only [hfind]
                  rfl
                right
                simp [collect_field, hval]
            | inst e =>
                have h1' : projField f σ = [] := by
                  have h1t : match pointed_getter (Data.obj kvs) [Seg.field f]
                      (Data.list []) with
                    | .list _ => ∃ mv vv, projField f σ = [([], Data.lazy mv vv)]
                    | _ => projField f σ = [] := h1
                  rw [hvx] at h1t
                  exact h1t
                have hval : pointed_getter (applyAll σ (Data.obj kvs))
                    [Seg.field f] (Data.list []) = Data.inst e := by
                  rw [hget, h1']
                  simp only [hfind]
                  rfl
                right
                simp [collect_field, hval]
            | lazy m2 v2 =>
                have h1' : projField f σ = [] := by
                  have h1t : match pointed_getter (Data.obj kvs) [Seg.field f]
                      (Data.list []) with
                    | .list _ => ∃ mv vv, projField f σ = [([], Data.lazy mv vv)]
                    | _ => projField f σ = [] := h1
                  rw [hvx] at h1t
                  exact h1t
                have hval : pointed_getter (applyAll σ (Data.obj kvs))
                    [Seg.field f] (Data.list []) = Data.lazy m2 v2 := by
                  rw [hget, h1']
                  simp only [hfind]
                  rfl
                right
                simp [collect_field, hval]
            | obj kvs2 =>
                have h1' : projField f σ = [] := by
                  have h1t : match pointed_getter (Data.obj kvs) [Seg.field f]
                      (Data.list []) with
                    | .list _ => ∃ mv vv, projField f σ = [([], Data.lazy mv vv)]
                    | _ => projField f σ = [] := h1
                  rw [hvx] at h1t
                  exact h1t
                have hval : pointed_getter (applyAll σ (Data.obj kvs))
                    [Seg.field f] (Data.list []) = Data.obj kvs2 := by
                  rw [hget, h1']
                  simp only [hfind]
                  rfl
                right
                simp [collect_field, hval]
        | rel cf =>
            have h1' : Writes cf (pointed_getter (Data.obj kvs) [Seg.field f]
                Data.none) (projField f σ) := h1
            have hcl1 : cleanNode cf ((assocFind kvs f).getD Data.none) =
                true := hcl.1
            have hszcf : sizeOf cf < sizeOf ((f, RelTy.rel cf) :: rest) := by
              simp <;> omega
            have hget := applyAll_obj_field σ kvs f Data.none hne
            cases hfind : assocFind kvs f with
            | some x =>
                have hvx : pointed_getter (Data.obj kvs) [Seg.field f]
                    Data.none = x := by
                  rw [pget_obj_single, hfind]
                rw [hvx] at h1'
                rw [hfind] at hcl1
                have hclx : cleanNode cf x = true := hcl1
                have hval : pointed_getter (applyAll σ (Data.obj kvs))
                    [Seg.field f] Data.none = applyAll (projField f σ) x := by
                  rw [hget]
                  simp only [hfind]
                have hnil := hIH cf hszcf x (projField f σ) h1' hclx
                right
                simp [collect_field, hval, hnil, FkData.withPre]
            | none =>
                have hvx : pointed_getter (Data.obj kvs) [Seg.field f]
                    Data.none = Data.none := by
                  rw [pget_obj_single, hfind]
                rw [hvx] at h1'
                have hσ := writes_none_eq cf _ h1'
                have hval : pointed_getter (applyAll σ (Data.obj kvs))
                    [Seg.field f] Data.none = Data.none := by
                  rw [hget, hσ]
                  simp only [hfind]
                  rfl
                right
                simp [collect_field, hval, gafd_none_nil, FkData.withPre]
        | rel_l cf =>
            have hszcf : sizeOf cf < sizeOf ((f, RelTy.rel_l cf) :: rest) := by
              simp <;> omega
            have hget := applyAll_obj_field σ kvs f (Data.list []) hne
            cases hfind : assocFind kvs f with
            | some x =>
                have hvx : pointed_getter (Data.obj kvs) [Seg.field f]
                    (Data.list []) = x := by
                  rw [pget_obj_single, hfind]
                cases x with
                | list vs =>
                    have h1' : WritesList cf vs 0 (projField f σ) ∧
                        (∀ t ∈ projField f σ, t.1 ≠ []) := by
                      have h1t : match pointed_getter (Data.obj kvs)
                          [Seg.field f] (Data.list []) with
                        | .list vs =>
                            WritesList cf vs 0 (projField f σ) ∧
                            (∀ t ∈ projField f σ, t.1 ≠ [])
                        | _ => projField f σ = [] := h1
                      rw [hvx] at h1t
                      exact h1t
                    have hclvs : cleanList cf vs = true := by
                      have hclt : (match assocFind kvs f with
                        | some (Data.list vs) => cleanList cf vs
                        | _ => true) = true := hcl.1
                      simp only [hfind] at hclt
                      exact hclt
                    obtain ⟨ys, hys, hlen, hel⟩ :=
                      applyAll_list_get (projField f σ) vs h1'.2
                    have hval : pointed_getter (applyAll σ (Data.obj kvs))
                        [Seg.field f] (Data.list []) = Data.list ys := by
                      rw [hget]
                      simp only [hfind]
                      exact hys
                    have hall : ∀ y ∈ ys, get_all_fk_data cf y = [] := by
                      intro y hy
                      obtain ⟨j, hgj⟩ := List.mem_iff_get?.mp hy
                      have hjlt : j < ys.length := (List.get?_eq_some.mp hgj).1
                      have hjx : j < vs.length := by omega
                      have hx2 : vs.get? j = some (vs.get ⟨j, hjx⟩) :=
                        List.get?_eq_get hjx
                      have hyel := hel j _ hx2
                      rw [hgj] at hyel
                      injection hyel with hyeq
                      have hw := writesList_get cf vs 0 (projField f σ)
                        h1'.1 j _ hx2
                      rw [Nat.zero_add] at hw
                      have hcx := cleanList_mem cf vs hclvs _
                        (List.get_mem vs j hjx)
                      rw [hyeq]
                      exact hIH cf hszcf _ _ hw hcx
                    right
                    simp [collect_field, hval,
                      rel_l_elems_all_nil cf f ys hall 0 []]
                | none =>
                    have h1' : projField f σ = [] := by
                      have h1t : match pointed_getter (Data.obj kvs)
                          [Seg.field f] (Data.list []) with
                        | .list vs =>
                            WritesList cf vs 0 (projField f σ) ∧
                            (∀ t ∈ projField f σ, t.1 ≠ [])
                        | _ => projField f σ = [] := h1
                      rw [hvx] at h1t
                      exact h1t
                    have hval : pointed_getter (applyAll σ (Data.obj kvs))
                        [Seg.field f] (Data.list []) = Data.none := by
                      rw [hget, h1']
                      simp only [hfind]
                      rfl
                    right
                    simp [collect_field, hval]
                | pk n =>
                    have h1' : projField f σ = [] := by
                      have h1t : match pointed_getter (Data.obj kvs)
                          [Seg.field f] (Data.list []) with
                        | .list vs =>
                            WritesList cf vs 0 (projField f σ) ∧
                            (∀ t ∈ projField f σ, t.1 ≠ [])
                        | _ => projField f σ = [] := h1
                      rw [hvx] at h1t
                      exact h1t
                    have hval : pointed_getter (applyAll σ (Data.obj kvs))
                        [Seg.field f] (Data.list []) = Data.pk n := by
                      rw [hget, h1']
                      simp only [hfind]
                      rfl
                    right
                    simp [collect_field, hval]
                | inst e =>
                    have h1' : projField f σ = [] := by
                      have h1t : match pointed_getter (Data.obj kvs)
                          [Seg.field f] (Data.list []) with
                        | .list vs =>
                            WritesList cf vs 0 (projField f σ) ∧
                            (∀ t ∈ projField f σ, t.1 ≠ [])
                        | _ => projField f σ = [] := h1
                      rw [hvx] at h1t
                      exact h1t
                    have hval : pointed_getter (applyAll σ (Data.obj kvs))
                        [Seg.field f] (Data.list []) = Data.inst e := by
                      rw [hget, h1']
                      simp only [hfind]
                      rfl
                    right
                    simp [collect_field, hval]
                | lazy m2 v2 =>
                    have h1' : projField f σ = [] := by
                      have h1t : match pointed_getter (Data.obj kvs)
                          [Seg.field f] (Data.list []) with
                        | .list vs =>
                            WritesList cf vs 0 (projField f σ) ∧
                            (∀ t ∈ projField f σ, t.1 ≠ [])
                        | _ => projField f σ = [] := h1
                      rw [hvx] at h1t
                      exact h1t
                    have hval : pointed_getter (applyAll σ (Data.obj kvs))
                        [Seg.field f] (Data.list []) = Data.lazy m2 v2 := by
                      rw [hget, h1']
                      simp only [hfind]
                      rfl
                    right
                    simp [collect_field, hval]
                | obj kvs2 =>
                    have h1' : projField f σ = [] := by
                      have h1t : match pointed_getter (Data.obj kvs)
                          [Seg.field f] (Data.list []) with
                        | .list vs =>
                            WritesList cf vs 0 (projField f σ) ∧
                            (∀ t ∈ projField f σ, t.1 ≠ [])
                        | _ => projField f σ = [] := h1
                      rw [hvx] at h1t
                      exact h1t
                    have hval : pointed_getter (applyAll σ (Data.obj kvs))
                        [Seg.field f] (Data.list []) = Data.obj kvs2 := by
                      rw [hget, h1']
                      simp only [hfind]
                      rfl
                    right
                    simp [collect_field, hval]
            | none =>
                have hvx : pointed_getter (Data.obj kvs) [Seg.field f]
                    (Data.list []) = Data.list [] := by
                  rw [pget_obj_single, hfind]
                have h1' : WritesList cf [] 0 (projField f σ) ∧
                    (∀ t ∈ projField f σ, t.1 ≠ []) := by
                  have h1t : match pointed_getter (Data.obj kvs)
                      [Seg.field f] (Data.list []) with
                    | .list vs =>
                        WritesList cf vs 0 (projField f σ) ∧
                        (∀ t ∈ projField f σ, t.1 ≠ [])
                    | _ => projField f σ = [] := h1
                  rw [hvx] at h1t
                  exact h1t
                have hval : pointed_getter (applyAll σ (Data.obj kvs))
                    [Seg.field f] (Data.list []) = Data.list [] := by
                  rw [hget]
                  simp only [hfind]
                  exact createRun_nonempty _ _ h1'.2
                right
                have hre : rel_l_elems cf f [] 0 [] = [] := by
                  rw [rel_l_elems]
                simp [collect_field, hval, hre]
      rw [collect_fields]
      cases hhead with
      | inl hno =>
          rw [hno]
          left
          rfl
      | inr hsome =>
          simp only [hsome]
          rw [mergeAll_nil]
          exact hrest acc

/-- Inner induction of the C theorem, on a bound on the data size. -/
theorem cinv_core : ∀ (b : Nat) (fs : Schema),
    (∀ cf, sizeOf cf < sizeOf fs → CInv cf) →
    ∀ d σ, sizeOf d ≤ b → Writes fs d σ → cleanNode fs d = true →
    get_all_fk_data fs (applyAll σ d) = [] := by
  intro b
  induction b with
  | zero =>
      intro fs _ d σ hb
      exact absurd hb (by have := sizeOf_data_pos d; omega)
  | succ b ihb =>
      intro fs hIH d σ hb hW hcl
      rw [Writes.eq_def] at hW
      obtain ⟨hne, hbody⟩ := hW
      cases d with
      | list xs =>
          rw [cleanNode.eq_def] at hcl
          have hclx : cleanList fs xs = true := hcl
          have hWL : WritesList fs xs 0 σ := hbody
          obtain ⟨ys, hys, hlen, hel⟩ := applyAll_list_get σ xs hne
          rw [hys, gafd_list_node]
          refine gafd_list_all_nil fs ys ?_ 0 []
          intro y hy
          obtain ⟨j, hgj⟩ := List.mem_iff_get?.mp hy
          have hjlt : j < ys.length := (List.get?_eq_some.mp hgj).1
          have hjx : j < xs.length := by omega
          have hx2 : xs.get? j = some (xs.get ⟨j, hjx⟩) := List.get?_eq_get hjx
          have hyel := hel j _ hx2
          rw [hgj] at hyel
          injection hyel with hyeq
          have hw := writesList_get fs xs 0 σ hWL j _ hx2
          rw [Nat.zero_add] at hw
          have hcx := cleanList_mem fs xs hclx _ (List.get_mem xs j hjx)
          have hsx : sizeOf (xs.get ⟨j, hjx⟩) ≤ b := by
            have h1 := List.sizeOf_lt_of_mem (List.get_mem xs j hjx)
            have h2 : sizeOf (Data.list xs) = 1 + sizeOf xs := by simp
            omega
          rw [hyeq]
          exact ihb fs hIH _ _ hsx hw hcx
      | none =>
          have hσ : σ = [] := hbody
          subst hσ
          rw [applyAll_nil]
          exact gafd_none_nil fs
      | pk n =>
          rw [cleanNode.eq_def] at hcl
          have hn : (n == 0) = true := hcl
          have hn0 : n = 0 := by simpa using hn
          subst hn0
          have hfalse : (Data.pk 0).truthy = false := by rfl
          have hb2 : if (Data.pk 0).truthy then
              (match collect_fields fs (Data.pk 0) [] with
               | Option.none => σ = []
               | some _ => WritesFields fs fs (Data.pk 0) σ)
            else σ = [] := hbody
          rw [if_neg (by rw [hfalse]; intro hx; cases hx : hx)] at hb2
          subst hb2
          rw [applyAll_nil, gafd_pk_node, gfd_falsy fs _ hfalse]
      | inst e =>
          rw [cleanNode.eq_def] at hcl
          have hf : (false : Bool) = true := hcl
          cases hf
      | lazy m v =>
          rw [cleanNode.eq_def] at hcl
          have hf : (false : Bool) = true := hcl
          cases hf
      | obj kvs =>
          rw [cleanNode.eq_def] at hcl
          have hclf : cleanFields fs kvs = true := hcl
          have hb2 : if (Data.obj kvs).truthy then
              (match collect_fields fs (Data.obj kvs) [] with
               | Option.none => σ = []
               | some _ => WritesFields fs fs (Data.obj kvs) σ)
            else σ = [] := hbody
          by_cases ht : (Data.obj kvs).truthy = true
          · rw [if_pos ht] at hb2
            cases hc : collect_fields fs (Data.obj kvs) [] with
            | none =>
                rw [hc] at hb2
                have hσ : σ = [] := hb2
                subst hσ
                rw [applyAll_nil, gafd_obj_node, gfd_truthy fs _ ht]
                simp [hc]
            | some r =>
                rw [hc] at hb2
                have hWF : WritesFields fs fs (Data.obj kvs) σ := hb2
                obtain ⟨kvs2, hk2, hlen2⟩ := applyAll_obj_shape σ kvs hne
                have hlen0 : 0 < kvs.length := by
                  cases hkv : kvs with
                  | nil =>
                      rw [hkv] at ht
                      cases ht
                  | cons a l => simp
                have hne2 : (Data.obj kvs2).truthy = true := by
                  cases hkv : kvs2 with
                  | nil =>
                      rw [hkv] at hlen2
                      simp only [List.length_nil] at hlen2
                      omega
                  | cons a l => rfl
                rw [hk2, gafd_obj_node, gfd_truthy fs _ hne2, ← hk2]
                have hca := collect_fields_after kvs σ hne fs fs hIH hWF hclf []
                cases hca with
                | inl hno => simp [hno]
                | inr hsome => simp [hsome]
          · rw [if_neg ht] at hb2
            subst hb2
            rw [applyAll_nil, gafd_obj_node, gfd_falsy fs _ (by simpa using ht)]

/-- Outer induction of the C theorem, on a bound on the schema size. -/
theorem cinv_all : ∀ (a : Nat) (fs : Schema), sizeOf fs ≤ a → CInv fs := by
  intro a
  induction a with
  | zero =>
      intro fs hle
      exact absurd hle (by have := sizeOf_schema_pos fs; omega)
  | succ a iha =>
      intro fs hle d σ hW hcl
      exact cinv_core (sizeOf d) fs (fun cf hlt => iha cf (by omega)) d σ
        le_rfl hW hcl

/-- C: applying a write list that satisfies the `Writes` invariant to a
clean node produces a tree from which the collector collects nothing. -/
theorem collect_after_subst (fs : Schema) (d : Data)
    (σ : List (Path × Data)) (hW : Writes fs d σ)
    (hcl : cleanNode fs d = true) :
    get_all_fk_data fs (applyAll σ d) = [] :=
  cinv_all (sizeOf fs) fs le_rfl d σ hW hcl

/-! ## C3: idempotence of the collect-and-substitute phase -/

/-- C3: `build_cache` is idempotent on already-substituted data.  Under
a well-formed schema (`schemaOk`: field names distinct at every level)
and a clean input (`cleanNode`: nested relation positions hold dicts,
lists or nulls rather than bare keys or instances), the tree produced
by one enabled `build_cache` pass collects nothing on a second pass —
every already-substituted field is skipped or trips the recursion
guard — so the second pass performs no persistence fetch, leaves every
placed Lazy Value (and the rest of the tree) unchanged, and leaves the
cache at its entry state. -/
theorem c3_idempotent (shared : Bool) (db : DB) (c c2 : Cache)
    (fs : Schema) (d : Data) (hok : schemaOk fs = true)
    (hcl : cleanNode fs d = true) :
    get_all_fk_data fs (build_cache true shared db c fs d).data = [] ∧
    build_cache true shared db c2 fs
        (build_cache true shared db c fs d).data =
      ⟨(build_cache true shared db c fs d).data,
        if shared then c2 else [], []⟩ := by
  have hdata : (build_cache true shared db c fs d).data =
      subst_all (get_all_fk_data fs d) d := by
    rw [build_cache]
    simp
  have h0 : get_all_fk_data fs (build_cache true shared db c fs d).data
      = [] := by
    rw [hdata, subst_all_eq_applyAll]
    exact collect_after_subst fs d _ (writes_flatten fs d hok) hcl
  refine ⟨h0, ?_⟩
  rw [build_cache]
  simp [h0, mk_plainset, fetch_loop, subst_all]

/-- C3 witness: a nested-single schema over a substituted tree. -/
theorem c3_witness :
    get_all_fk_data fsAddr (build_cache true false dbMain [] fsAddr dAddr).data
      = [] ∧
    build_cache true false dbMain [] fsAddr
        (build_cache true false dbMain [] fsAddr dAddr).data =
      ⟨(build_cache true false dbMain [] fsAddr dAddr).data, [], []⟩ :=
  c3_idempotent false dbMain [] [] fsAddr dAddr
    (by simp [fsAddr, schemaOk, tyOk])
    (by simp [fsAddr, dAddr, cleanNode, cleanFields, assocFind])

end Structured
